import Mathlib

/- Verification of the bitbucket-issue-migration script (migrate.py),
   shallowly embedded in Lean.  Python strings are modelled as `List Char`
   (written `PyStr`); the mutable caches (`options.users`,
   `GithubMilestones.title_to_number`) are threaded through an explicit
   `ConvState`; HTTP responses are supplied by a `Web` oracle; Python
   exceptions become `Except PyStr`. -/

abbrev PyStr := List Char

instance {ε α : Type} [DecidableEq ε] [DecidableEq α] : DecidableEq (Except ε α) := fun a b =>
  match a, b with
  | .error e, .error f => decidable_of_iff (e = f) (by simp)
  | .ok x, .ok y => decidable_of_iff (x = y) (by simp)
  | .error _, .ok _ => isFalse (by simp)
  | .ok _, .error _ => isFalse (by simp)

/-- Python `str.splitlines()`, restricted to the newline character `\n`
    (the only line terminator occurring in the migrated texts):
    `"" ↦ []`, a trailing newline produces no trailing empty line. -/
def splitlines : PyStr → List PyStr
  | [] => []
  | c :: rest =>
    if c = '\n' then [] :: splitlines rest
    else
      match splitlines rest with
      | [] => [[c]]
      | l :: ls => (c :: l) :: ls

/-- Python `"\n".join(lines)`. -/
def joinLines : List PyStr → PyStr
  | [] => []
  | [l] => l
  | l :: l₂ :: ls => l ++ '\n' :: joinLines (l₂ :: ls)

/-- Python `tok in s` (substring containment). -/
def containsTok (tok : PyStr) : PyStr → Bool
  | [] => tok.isPrefixOf []
  | c :: rest => tok.isPrefixOf (c :: rest) || containsTok tok rest

/-- Python `s.partition(sep)`: split at the first occurrence of `sep`,
    returning `(before, sep, after)`, or `(s, "", "")` when absent. -/
def pyPartition (sep : PyStr) : PyStr → PyStr × PyStr × PyStr
  | [] => ([], [], [])
  | c :: rest =>
    if sep ≠ [] ∧ sep.isPrefixOf (c :: rest) then
      ([], sep, (c :: rest).drop sep.length)
    else
      let (b, m, a) := pyPartition sep rest
      (c :: b, m, a)

/-- The scan of Python `s.replace(tok, rep)`: replace every
    non-overlapping occurrence of `tok` (scanning left to right) with
    `rep`.  After a replacement the `skip` counter drops the remaining
    `tok.length - 1` matched characters one at a time, keeping the
    recursion structural. -/
def pyReplaceGo (tok rep : PyStr) : Nat → PyStr → PyStr
  | _, [] => []
  | skip + 1, _ :: rest => pyReplaceGo tok rep skip rest
  | 0, c :: rest =>
    if tok ≠ [] ∧ tok.isPrefixOf (c :: rest) then
      rep ++ pyReplaceGo tok rep (tok.length - 1) rest
    else
      c :: pyReplaceGo tok rep 0 rest

/-- Python `s.replace(tok, rep)`. -/
def pyReplace (tok rep : PyStr) (s : PyStr) : PyStr := pyReplaceGo tok rep 0 s

/-- Python `s.strip()` (leading and trailing whitespace removed). -/
def pyStrip (s : PyStr) : PyStr :=
  ((s.dropWhile Char.isWhitespace).reverse.dropWhile Char.isWhitespace).reverse

/-- The open and close Creole code-block token. -/
def tokOpen : PyStr := ['\x7b', '\x7b', '\x7b']

def tokClose : PyStr := ['\x7d', '\x7d', '\x7d']

def indent4 : PyStr := [' ', ' ', ' ', ' ']

def backtick : PyStr := ['\x60']

/-- One iteration of the loop body of `convert_creole_braces` in
    migrate.py: given the `in_block` flag and the current line, produce the
    lines appended to the accumulator and the new flag. -/
def creole_step (in_block : Bool) (line : PyStr) : List PyStr × Bool :=
  if tokOpen.isPrefixOf line ∨ tokClose.isPrefixOf line then
    let (acc₁, st₁) :=
      if containsTok tokOpen line then
        ([indent4 ++ (pyPartition tokOpen line).2.2], true)
      else ([], in_block)
    if containsTok tokClose line then
      (acc₁ ++ [indent4 ++ (pyPartition tokClose line).1], false)
    else (acc₁, st₁)
  else if in_block then ([indent4 ++ line], in_block)
  else ([pyReplace tokClose backtick (pyReplace tokOpen backtick line)], in_block)

/-- The loop of `convert_creole_braces`, over the list of lines. -/
def creole_lines : Bool → List PyStr → List PyStr
  | _, [] => []
  | in_block, l :: ls =>
    let (out, st₁) := creole_step in_block l
    out ++ creole_lines st₁ ls

/-- migrate.py `convert_creole_braces(content)`. -/
def convert_creole_braces (content : PyStr) : PyStr :=
  joinLines (creole_lines false (splitlines content))

/-- Command-line options of migrate.py relevant to the converters. -/
structure Options where
  bitbucket_repo : PyStr
  bb_skip : Option PyStr
  link_changesets : Bool

/-- Match a fragment of the generated regex in which `.` is the only
    metacharacter (it matches any character); on success return the rest of
    the input after the match. -/
def patMatch : PyStr → PyStr → Option PyStr
  | [], s => some s
  | _ :: _, [] => none
  | p :: ps, c :: cs => if p = '.' ∨ p = c then patMatch ps cs else none

/-- The pattern string `'https://bitbucket.org/{repo}/issue/(\d+)'` of
    `convert_links`, minus the final digit group. -/
def linkPat (repo : PyStr) : PyStr :=
  "https://bitbucket.org/".toList ++ repo ++ "/issue/".toList

/-- The scanning loop of `re.sub(pattern, r'#\1', content)`: at each
    position try the literal pattern followed by a maximal nonempty digit
    run; on a match emit `#` and the digits and continue after the match
    (the `skip` counter drops the already-rewritten characters one at a
    time, keeping the recursion structural), otherwise copy one
    character. -/
def convert_links_go (pat : PyStr) : Nat → PyStr → PyStr
  | _, [] => []
  | skip + 1, _ :: rest => convert_links_go pat skip rest
  | 0, c :: rest =>
    match patMatch pat (c :: rest) with
    | some after =>
      let ds := after.takeWhile Char.isDigit
      if ds = [] then c :: convert_links_go pat 0 rest
      else '#' :: ds ++ convert_links_go pat (pat.length + ds.length - 1) rest
    | none => c :: convert_links_go pat 0 rest

/-- migrate.py `convert_links(content, options)`. -/
def convert_links (content : PyStr) (options : Options) : PyStr :=
  convert_links_go (linkPat options.bitbucket_repo) 0 content

def isHexCh (c : Char) : Bool := ('a' ≤ c && c ≤ 'f') || c.isDigit

/-- A regex word character `\w` (over the ASCII texts being migrated). -/
def isWordCh (c : Char) : Bool := c.isAlphanum || c = '_'

/-- Whether `\b` holds between a word character and the given rest of the
    input. -/
def wordBoundary : PyStr → Bool
  | [] => true
  | c :: _ => !isWordCh c

/-- The replacement text `' [{sha} (bb)](https://bitbucket.org/{repo}/commits/{sha})'`. -/
def csetLink (repo sha : PyStr) : PyStr :=
  " [".toList ++ sha ++ " (bb)](https://bitbucket.org/".toList ++ repo
    ++ "/commits/".toList ++ sha ++ ")".toList

/-- The scanning loop of `re.sub(r" ([a-f0-9]{6,40})\b", replace_changeset,
    content)` in link mode.  A match is a space followed by a maximal run of
    6 to 40 lowercase-hex characters ending at a word boundary.  For a
    matched run that is at least 8 characters long or contains a digit,
    `replace_changeset` returns the commit link; otherwise it falls through
    and returns Python `None`, which is not a valid replacement: `re.sub`
    raises a `TypeError` on the CPython versions contemporary with the
    script (and on current CPython silently deletes the matched text, which
    is equally not leaving it unchanged); modelled as `.error`.  The `skip`
    counter drops the already-consumed run characters one at a time,
    keeping the recursion structural. -/
def changesets_link (repo : PyStr) : Nat → PyStr → Except PyStr PyStr
  | _, [] => .ok []
  | skip + 1, _ :: rest => changesets_link repo skip rest
  | 0, c :: rest =>
    if c = ' ' then
      let run := rest.takeWhile isHexCh
      let after := rest.drop run.length
      if 6 ≤ run.length ∧ run.length ≤ 40 ∧ wordBoundary after then
        if 8 ≤ run.length ∨ run.any Char.isDigit then
          (fun t => csetLink repo run ++ t) <$> changesets_link repo run.length rest
        else .error "TypeError: expected str instance, NoneType found".toList
      else (fun t => c :: t) <$> changesets_link repo 0 rest
    else (fun t => c :: t) <$> changesets_link repo 0 rest

/-- The changeset marker prefix `"→ <<cset"` of the strip mode. -/
def csetMarker : PyStr := "→ <<cset".toList

/-- migrate.py `convert_changesets(content, options)`: in link mode rewrite
    inline revision hashes (possibly raising, see `changesets_link`); in
    strip mode drop every line starting with the cset marker. -/
def convert_changesets (content : PyStr) (options : Options) : Except PyStr PyStr :=
  if options.link_changesets then
    changesets_link options.bitbucket_repo 0 content
  else
    .ok (joinLines ((splitlines content).filter (fun l => !(csetMarker.isPrefixOf l))))

/-- Match a fixed-length sequence of character classes; on success return
    the matched characters and the rest. -/
def matchClass : List (Char → Bool) → PyStr → Option (PyStr × PyStr)
  | [], s => some ([], s)
  | _ :: _, [] => none
  | p :: ps, c :: cs =>
    if p c then (fun (m, r) => (c :: m, r)) <$> matchClass ps cs else none

def isDash (c : Char) : Bool := c = '-'

def isColon (c : Char) : Bool := c = ':'

/-- The date part `\d\d\d\d-\d\d-\d\d` of the pattern in `convert_date`. -/
def datePat : List (Char → Bool) :=
  [Char.isDigit, Char.isDigit, Char.isDigit, Char.isDigit, isDash,
   Char.isDigit, Char.isDigit, isDash, Char.isDigit, Char.isDigit]

/-- The time part `\d\d:\d\d:\d\d` of the pattern in `convert_date`. -/
def timePat : List (Char → Bool) :=
  [Char.isDigit, Char.isDigit, isColon, Char.isDigit, Char.isDigit, isColon,
   Char.isDigit, Char.isDigit]

/-- The scan of `re.search(r'(\d\d\d\d-\d\d-\d\d)T(\d\d:\d\d:\d\d)', s)`:
    try the pattern at every position, left to right. -/
def convert_date_go (orig : PyStr) : PyStr → Except PyStr PyStr
  | [] => .error ("Could not parse date: ".toList ++ orig)
  | c :: rest =>
    match matchClass datePat (c :: rest) with
    | some (d, r₁) =>
      match r₁ with
      | 'T' :: r₂ =>
        match matchClass timePat r₂ with
        | some (t, _) => .ok (d ++ 'T' :: t ++ ['Z'])
        | none => convert_date_go orig rest
      | _ => convert_date_go orig rest
    | none => convert_date_go orig rest

/-- migrate.py `convert_date(bb_date)`: reformat
    `YYYY-MM-DDThh:mm:ss...` as `YYYY-MM-DDThh:mm:ssZ`, raising when the
    pattern does not occur. -/
def convert_date (bb_date : PyStr) : Except PyStr PyStr :=
  convert_date_go bb_date bb_date

/-- A character of the mention name class `[a-zA-Z0-9_-]`. -/
def nameCh (c : Char) : Bool := c.isAlphanum || c = '_' || c = '-'

/-- Drop trailing dashes: the backtracking of `[a-zA-Z0-9_-]+\b`, which
    must end the match at the last word character of the run. -/
def rtrimDashes (s : PyStr) : PyStr := (s.reverse.dropWhile isDash).reverse

/-- The scanning loop of `MENTION_RE.sub(replace_user, content)` where
    `MENTION_RE = re.compile(r'(?:^|(?<=[^\w]))@[a-zA-Z0-9_-]+\b')`:
    an `@` at the start or after a non-word character, followed by a
    nonempty name run, is replaced by `'@' + (users.get(matched) or
    matched)`.  `prev` carries the previous character for the lookbehind and
    the `skip` counter drops the already-rewritten name characters one at a
    time, keeping the recursion structural. -/
def convert_users_go (users : List (PyStr × Option PyStr)) :
    Option Char → Nat → PyStr → PyStr
  | _, _, [] => []
  | _, skip + 1, c :: rest => convert_users_go users (some c) skip rest
  | prev, 0, c :: rest =>
    if c = '@' ∧ (prev = none ∨ ∀ p, prev = some p → !isWordCh p) then
      let run := rest.takeWhile nameCh
      let name := rtrimDashes run
      if name = [] then c :: convert_users_go users (some c) 0 rest
      else
        let repl := match users.lookup name with
          | some (some s) => if s = [] then name else s
          | _ => name
        '@' :: repl ++ convert_users_go users (some c) name.length rest
    else c :: convert_users_go users (some c) 0 rest

/-- migrate.py `convert_users(content, options)`; `users` is the current
    state of the `options.users` cache. -/
def convert_users (content : PyStr) (users : List (PyStr × Option PyStr)) : PyStr :=
  convert_users_go users none 0 content

/-- A Bitbucket user record (`{'nickname': ..., 'display_name': ...}`). -/
structure BBUser where
  nickname : PyStr
  display_name : PyStr
deriving DecidableEq

/-- A named sub-object such as a component, version or milestone
    (`{'name': ...}`). -/
structure Named where
  name : PyStr
deriving DecidableEq

/-- A Bitbucket issue as fetched from the API (the fields migrate.py
    reads). -/
structure BBIssue where
  id : Nat
  title : PyStr
  content_raw : PyStr
  state : PyStr
  created_on : PyStr
  updated_on : PyStr
  reporter : Option BBUser
  assignee : Option BBUser
  priority : PyStr
  component : Option Named
  kind : Option PyStr
  version : Option Named
  milestone : Option Named
deriving DecidableEq

/-- One entry of `change['changes']`: a field name with old and new
    values. -/
structure BBChangeItem where
  old : PyStr
  new : PyStr
deriving DecidableEq

/-- A Bitbucket issue change event. -/
structure BBChange where
  created_on : PyStr
  user : Option BBUser
  changes : List (PyStr × BBChangeItem)
deriving DecidableEq

/-- A Bitbucket issue comment; `content_raw` is `None` for status-only
    comments. -/
structure BBComment where
  created_on : PyStr
  user : Option BBUser
  content_raw : Option PyStr
deriving DecidableEq

/-- An element of the gap-filled issue sequence: a real Bitbucket issue or
    a `DummyIssue(num)` placeholder, which carries only its number. -/
inductive FilledIssue where
  | real (issue : BBIssue)
  | dummy (num : Nat)
deriving DecidableEq

/-- The identifier `issue['id']` of a gap-filled sequence element. -/
def FilledIssue.id : FilledIssue → Nat
  | .real issue => issue.id
  | .dummy num => num

/-- migrate.py `fill_gaps(issues_iterator, offset)`: walk the issues
    keeping a running `current_id` (starting at the offset) and yield a
    `DummyIssue` for every integer in `range(current_id + 1, issue_id)`
    before each real issue. -/
def fill_gaps : List BBIssue → Nat → List FilledIssue
  | [], _ => []
  | issue :: rest, current_id =>
    (List.range' (current_id + 1) (issue.id - (current_id + 1))).map FilledIssue.dummy
      ++ FilledIssue.real issue :: fill_gaps rest issue.id

/-- The GitHub Issue Import API payload built by `convert_issue`.  A
    `DummyIssue` fills only `title`, `body` and `closed`; the optional
    fields model keys absent from the Python dict. -/
structure GHIssue where
  title : PyStr
  body : PyStr
  closed : Bool
  created_at : Option PyStr := none
  updated_at : Option PyStr := none
  labels : List PyStr := []
  assignee : Option PyStr := none
  closed_at : Option PyStr := none
  milestone : Option Nat := none
deriving DecidableEq

/-- The payload built by `convert_comment`. -/
structure GHComment where
  created_at : PyStr
  body : PyStr
deriving DecidableEq

/-- The HTTP responses of the run, as a deterministic oracle: the status
    code of `HEAD https://api.github.com/users/<name>`, and the status code
    and milestone number answered by `POST .../milestones`. -/
structure Web where
  user_status : PyStr → Nat
  milestone_create : PyStr → Nat × Nat

/-- The mutable caches of a run: the `options.users` dict (a value `none`
    is Python `None`, meaning confirmed absent on GitHub), a counter of
    user-existence HTTP calls, the `GithubMilestones.title_to_number` dict
    and a counter of milestone-creation HTTP calls. -/
structure ConvState where
  users : List (PyStr × Option PyStr)
  gh_calls : Nat
  title_to_number : List (PyStr × Nat)
  create_calls : Nat
deriving DecidableEq

/-- migrate.py `_gh_username(username, users, gh_auth)`: answer from the
    cache if present; otherwise perform the existence check, caching the
    username on 200 and `None` on 404, and raising on 403 or any other
    status. -/
def gh_username (username : PyStr) (web : Web) (st : ConvState) :
    Except PyStr (Option PyStr × ConvState) :=
  match st.users.lookup username with
  | some v => .ok (v, st)
  | none =>
    let status := web.user_status username
    let st₁ : ConvState := { st with gh_calls := st.gh_calls + 1 }
    if status = 200 then
      .ok (some username, { st₁ with users := (username, some username) :: st₁.users })
    else if status = 404 then
      .ok (none, { st₁ with users := (username, none) :: st₁.users })
    else if status = 403 then
      .error ("GitHub returned HTTP Status Code 403 Forbidden when accessing: https://api.github.com/users/".toList
        ++ username)
    else
      .error ("Failed to check GitHub User url: https://api.github.com/users/".toList
        ++ username ++ " due to unexpected HTTP status code".toList)

/-- migrate.py `format_user(user, options)`. -/
def format_user (user : Option BBUser) (web : Web) (st : ConvState) :
    Except PyStr (PyStr × ConvState) :=
  match user with
  | none => .ok ("Anonymous".toList, st)
  | some u =>
    let bb_user := "Bitbucket: [".toList ++ u.nickname
      ++ "](https://bitbucket.org/".toList ++ u.nickname ++ ")".toList
    match gh_username u.nickname web st with
    | .error e => .error e
    | .ok (ghu, st₁) =>
      let gh_user := match ghu with
        | some g => "GitHub: [".toList ++ g ++ "](https://github.com/".toList ++ g ++ ")".toList
        | none => []
      .ok (u.display_name ++ " (".toList ++ bb_user ++ ", ".toList ++ gh_user ++ ")".toList, st₁)

/-- migrate.py `SEP = "-" * 40`. -/
def SEP : PyStr := List.replicate 40 '-'

/-- migrate.py `GithubMilestones.create(title)`: POST the title; any
    status other than 201 raises; on success count the call and return the
    assigned number. -/
def GithubMilestones.create (title : PyStr) (web : Web) (st : ConvState) :
    Except PyStr (Nat × ConvState) :=
  let (status, number) := web.milestone_create title
  if status ≠ 201 then
    .error "Failed to get milestones due to HTTP status code".toList
  else
    .ok (number, { st with create_calls := st.create_calls + 1 })

/-- migrate.py `GithubMilestones.ensure(title)`: look the title up in
    `title_to_number`, creating and recording it when absent. -/
def GithubMilestones.ensure (title : PyStr) (web : Web) (st : ConvState) :
    Except PyStr (Nat × ConvState) :=
  match st.title_to_number.lookup title with
  | some number => .ok (number, st)
  | none =>
    match GithubMilestones.create title web st with
    | .error e => .error e
    | .ok (number, st₁) =>
      .ok (number, { st₁ with title_to_number := (title, number) :: st₁.title_to_number })


/-- Decimal rendering of a number, as Python `str.format` does. -/
def natStr (n : Nat) : PyStr := (Nat.repr n).toList

/-- migrate.py `ATTACHMENTS_TEMPLATE.format(attach_names=", ".join(...))`. -/
def attachmentsText (attach_names : List PyStr) : PyStr :=
  "The original report had attachments: ".toList
    ++ List.intercalate ", ".toList attach_names ++ "\n\n".toList

/-- migrate.py `format_issue_body(issue, attach_names, options)`: run the
    text-transform chain on the raw content, format the reporter, and
    instantiate `ISSUE_TEMPLATE` (or `ISSUE_TEMPLATE_SKIP_USER` when the
    reporter is the `--skip-attribution-for` user). -/
def format_issue_body (issue : BBIssue) (attach_names : List PyStr)
    (options : Options) (web : Web) (st : ConvState) :
    Except PyStr (PyStr × ConvState) :=
  match convert_changesets issue.content_raw options with
  | .error e => .error e
  | .ok c₁ =>
    let content := convert_users (convert_links (convert_creole_braces c₁) options) st.users
    match format_user issue.reporter web st with
    | .error e => .error e
    | .ok (reporter, st₁) =>
      let attachments := if attach_names ≠ [] then attachmentsText attach_names else []
      let skip_user : Bool := match issue.reporter with
        | some r => options.bb_skip == some r.nickname
        | none => false
      let head :=
        if skip_user then
          "**[Original report](https://bitbucket.org/".toList ++ options.bitbucket_repo
            ++ "/issue/".toList ++ natStr issue.id ++ ") by me.**\n\n".toList
        else
          "**[Original report](https://bitbucket.org/".toList ++ options.bitbucket_repo
            ++ "/issue/".toList ++ natStr issue.id ++ ") by ".toList ++ reporter
            ++ ".**\n\n".toList
      .ok (head ++ attachments ++ SEP ++ "\n\n".toList ++ content ++ ['\n'], st₁)

/-- migrate.py `format_comment_body(comment, options)`; `comment['content']
    ['raw']` must not be `None` (the caller filters those out first). -/
def format_comment_body (comment : BBComment) (options : Options) (web : Web)
    (st : ConvState) : Except PyStr (PyStr × ConvState) :=
  match comment.content_raw with
  | none => .error "AttributeError: NoneType object has no attribute splitlines".toList
  | some raw =>
    match convert_changesets raw options with
    | .error e => .error e
    | .ok c₁ =>
      let content := convert_users (convert_links (convert_creole_braces c₁) options) st.users
      match format_user comment.user web st with
      | .error e => .error e
      | .ok (author, st₁) =>
        let skip_user : Bool := match comment.user with
          | some u => options.bb_skip == some u.nickname
          | none => false
        if skip_user then
          .ok (content ++ ['\n'], st₁)
        else
          .ok ("**Original comment by ".toList ++ author ++ ".**\n\n".toList
            ++ SEP ++ "\n\n".toList ++ content ++ ['\n'], st₁)

/-- The states migrate.py counts as open:
    `issue['state'] not in ('open', 'new', 'on hold')`. -/
def open_states : List PyStr := ["open".toList, "new".toList, "on hold".toList]

/-- The open-like transition states of the `closed_at` search:
    `('', 'open', 'new', 'on hold')`. -/
def open_like_states : List PyStr := [[], "open".toList, "new".toList, "on hold".toList]

/-- Whether a change event is a transition from an open-like state to a
    non-open-like state (`'state' in change['changes'] and ...`). -/
def stateTransition (change : BBChange) : Bool :=
  match change.changes.lookup "state".toList with
  | some item => open_like_states.contains item.old && !(open_like_states.contains item.new)
  | none => false

/-- Python string comparison (used by `sorted`): lexicographic on code
    points, which for `List Char` is the Mathlib linear order. -/
def strLe (a b : PyStr) : Bool := decide (a ≤ b)

/-- Insert into an ascending list, after any equal elements. -/
def insertAsc (x : PyStr) : List PyStr → List PyStr
  | [] => [x]
  | y :: ys => if strLe y x then y :: insertAsc x ys else x :: y :: ys

/-- Python `sorted()` on strings: ascending lexicographic order.  Python
    uses a stable mergesort; since equal strings are indistinguishable the
    result coincides with this insertion sort. -/
def pySorted : List PyStr → List PyStr
  | [] => []
  | x :: xs => insertAsc x (pySorted xs)

/-- The comma-stripped, 50-capped label value `v.replace(',', '')[:50]`. -/
def labelValue (v : PyStr) : PyStr := (v.filter (fun c => c ≠ ',')).take 50

/-- migrate.py `convert_issue(issue, comments, changes, options,
    attach_names, gh_milestones, users)`; `users` is the
    `explicitly_mapped_users` copy consulted for the assignee, while the
    live `options.users` cache lives in `st`. -/
def convert_issue (issue : FilledIssue) (comments : List BBComment)
    (changes : List BBChange) (options : Options) (attach_names : List PyStr)
    (users : List (PyStr × PyStr)) (web : Web) (st : ConvState) :
    Except PyStr (GHIssue × ConvState) :=
  match issue with
  | .dummy _ =>
    .ok ({ title := "dummy issue".toList,
           body := "filler issue created by bitbucket_issue_migration".toList,
           closed := true }, st)
  | .real issue =>
    let labels₀ := [issue.priority]
    let labels₁ := match issue.component with
      | some v => labels₀ ++ [labelValue v.name]
      | none => labels₀
    let labels₂ := match issue.kind with
      | some v => labels₁ ++ [labelValue v]
      | none => labels₁
    let labels := match issue.version with
      | some v => labels₂ ++ [labelValue v.name]
      | none => labels₂
    let is_closed : Bool := !(open_states.contains issue.state)
    let gh_assignee := match issue.assignee with
      | some a => users.lookup a.nickname
      | none => none
    match format_issue_body issue attach_names options web st with
    | .error e => .error e
    | .ok (body, st₁) =>
      match convert_date issue.created_on with
      | .error e => .error e
      | .ok created =>
        match convert_date issue.updated_on with
        | .error e => .error e
        | .ok updated =>
          let out : GHIssue :=
            { title := issue.title, body := body, closed := is_closed,
              created_at := some created, updated_at := some updated,
              labels := labels, assignee := gh_assignee }
          let withClosed : Except PyStr GHIssue :=
            if is_closed then
              match (changes.filter stateTransition).mapM
                  (fun change => convert_date change.created_on) with
              | .error e => .error e
              | .ok closed_status =>
                if closed_status ≠ [] then
                  .ok { out with closed_at := some ((pySorted closed_status).getLastD []) }
                else
                  .ok { out with closed_at := some issue.updated_on }
            else .ok out
          match withClosed with
          | .error e => .error e
          | .ok out =>
            match issue.milestone with
            | some m =>
              if m.name ≠ [] then
                match GithubMilestones.ensure m.name web st₁ with
                | .error e => .error e
                | .ok (number, st₂) => .ok ({ out with milestone := some number }, st₂)
              else .ok (out, st₁)
            | none => .ok (out, st₁)

/-- migrate.py `convert_comment(comment, options)`: `None` (modelled as
    `none`) for a comment whose formatted body is blank. -/
def convert_comment (comment : BBComment) (options : Options) (web : Web)
    (st : ConvState) : Except PyStr (Option GHComment × ConvState) :=
  match format_comment_body comment options web st with
  | .error e => .error e
  | .ok (body, st₁) =>
    if pyStrip body = [] then .ok (none, st₁)
    else
      match convert_date comment.created_on with
      | .error e => .error e
      | .ok created => .ok (some { created_at := created, body := body }, st₁)

/-- The comment pipeline of `main`:
    `[c for c in (convert_comment(c, options) for c in comments
    if c['content']['raw'] is not None) if c]`. -/
def gh_comments_of (comments : List BBComment) (options : Options) (web : Web)
    (st : ConvState) : Except PyStr (List GHComment × ConvState) :=
  match comments with
  | [] => .ok ([], st)
  | c :: rest =>
    match c.content_raw with
    | none => gh_comments_of rest options web st
    | some _ =>
      match convert_comment c options web st with
      | .error e => .error e
      | .ok (none, st₁) => gh_comments_of rest options web st₁
      | .ok (some g, st₁) =>
        match gh_comments_of rest options web st₁ with
        | .error e => .error e
        | .ok (l, st₂) => .ok (g :: l, st₂)

/-- The numeric value of a digit run, as Python `int()` would read it. -/
def digitsToNat (ds : PyStr) : Nat :=
  ds.foldl (fun acc c => acc * 10 + (c.toNat - 48)) 0

/-- Modelled from the spec: the claim's version of the link rewriting,
    which consults a source-id-to-target-id map and replaces the URL with
    the mapped target identifier when the map has an entry, falling back to
    the source identifier verbatim otherwise.  migrate.py itself has no
    such map (`convert_links` always emits the captured digits). -/
def convert_links_map_go (idMap : Nat → Option Nat) (pat : PyStr) :
    Nat → PyStr → PyStr
  | _, [] => []
  | skip + 1, _ :: rest => convert_links_map_go idMap pat skip rest
  | 0, c :: rest =>
    match patMatch pat (c :: rest) with
    | some after =>
      let ds := after.takeWhile Char.isDigit
      if ds = [] then c :: convert_links_map_go idMap pat 0 rest
      else
        let rep := match idMap (digitsToNat ds) with
          | some m => natStr m
          | none => ds
        '#' :: rep ++ convert_links_map_go idMap pat (pat.length + ds.length - 1) rest
    | none => c :: convert_links_map_go idMap pat 0 rest

/-- Modelled from the spec: the map-consulting link rewriting applied the
    way `convert_links` is. -/
def convert_links_map (idMap : Nat → Option Nat) (options : Options)
    (content : PyStr) : PyStr :=
  convert_links_map_go idMap (linkPat options.bitbucket_repo) 0 content

/-- The reference element of the gap-filled sequence at identifier `n`:
    the real input issue with that identifier when there is one, a
    placeholder otherwise. -/
def fillRef (issues : List BBIssue) (n : Nat) : FilledIssue :=
  match issues.find? (fun i => i.id == n) with
  | some i => .real i
  | none => .dummy n

/-- A concrete issue used as witness input for the label theorem. -/
def wIssue : BBIssue := {
  id := 1, title := "t".toList, content_raw := [], state := "open".toList,
  created_on := "2012-11-26T09:59:39+00:00".toList,
  updated_on := "2012-11-26T09:59:39+00:00".toList,
  reporter := none, assignee := none, priority := "major".toList,
  component := some ⟨"core, stuff".toList⟩, kind := some ("bug".toList),
  version := none, milestone := none }

/-- The converted issue produced for `wIssue`. -/
def wOut : GHIssue := {
  title := "t".toList,
  body := "**[Original report](https://bitbucket.org/u/r/issue/1) by Anonymous.**\n\n".toList
    ++ SEP ++ "\n\n\n".toList,
  closed := false,
  created_at := some "2012-11-26T09:59:39Z".toList,
  updated_at := some "2012-11-26T09:59:39Z".toList,
  labels := ["major".toList, "core stuff".toList, "bug".toList],
  assignee := none, closed_at := none, milestone := none }

/-- A concrete closed issue with two open-to-closed transition changes,
    used as witness input for the closed-at theorem. -/
def w2Issue : BBIssue := {
  id := 2, title := "t2".toList, content_raw := [], state := "resolved".toList,
  created_on := "2012-11-26T09:59:39+00:00".toList,
  updated_on := "2013-01-01T10:00:00+00:00".toList,
  reporter := none, assignee := none, priority := "minor".toList,
  component := none, kind := none, version := none, milestone := none }

def wCh1 : BBChange := {
  created_on := "2012-12-01T00:00:00+00:00".toList, user := none,
  changes := [("state".toList, ⟨"open".toList, "resolved".toList⟩)] }

def wCh2 : BBChange := {
  created_on := "2012-12-05T00:00:00+00:00".toList, user := none,
  changes := [("state".toList, ⟨"new".toList, "wontfix".toList⟩)] }

/-- The converted issue produced for `w2Issue` with changes
    `[wCh2, wCh1]`. -/
def w2Out : GHIssue := {
  title := "t2".toList,
  body := "**[Original report](https://bitbucket.org/u/r/issue/2) by Anonymous.**\n\n".toList
    ++ SEP ++ "\n\n\n".toList,
  closed := true,
  created_at := some "2012-11-26T09:59:39Z".toList,
  updated_at := some "2013-01-01T10:00:00Z".toList,
  labels := ["minor".toList],
  assignee := none,
  closed_at := some "2012-12-05T00:00:00Z".toList,
  milestone := none }

/-- The comment list of the comment-dropping counterexample: a
    `None`-content comment, a normal comment and a whitespace-only comment
    by the skip-attribution user bob. -/
def cexComments : List BBComment := [
  { created_on := "2012-11-26T09:59:39+00:00".toList, user := none,
    content_raw := none },
  { created_on := "2012-11-26T09:59:39+00:00".toList, user := none,
    content_raw := some "x".toList },
  { created_on := "2012-11-26T09:59:39+00:00".toList,
    user := some ⟨"bob".toList, "Bob".toList⟩,
    content_raw := some " ".toList }]

/-- Options with `--skip-attribution-for bob`. -/
def cexOptions : Options := ⟨"u/r".toList, some "bob".toList, false⟩

/-- Witness comment list: one anonymous normal comment and one
    `None`-content comment. -/
def wC6Comments : List BBComment := [
  { created_on := "2012-11-26T09:59:39+00:00".toList, user := none,
    content_raw := some "x".toList },
  { created_on := "2012-11-26T09:59:39+00:00".toList, user := none,
    content_raw := none }]

/-- The converted comments produced for `wC6Comments`. -/
def wC6Out : List GHComment := [
  { created_at := "2012-11-26T09:59:39Z".toList,
    body := "**Original comment by Anonymous.**\n\n".toList ++ SEP ++ "\n\nx\n".toList }]

/-- A 52-character priority value containing a comma, used to exhibit
    that `convert_issue` does not sanitise the priority label. -/
def cexPriority : PyStr :=
  "aaaaaaaaaaaaaaaaaaaaaaaaaaaaaaaaaaaaaaaaaaaaaaaaa,aa".toList

/-- C7: within one run, calling `GithubMilestones.ensure` twice with the
    same title returns the same numeric milestone identifier both times and
    performs at most one creation call; a title already present in the
    registry never triggers a creation (the state, including the creation
    counter, is returned unchanged). -/
theorem ensure_idempotent (title : PyStr) (web : Web) (st st₁ : ConvState) (n₁ : Nat)
    (h : GithubMilestones.ensure title web st = .ok (n₁, st₁)) :
    GithubMilestones.ensure title web st₁ = .ok (n₁, st₁) ∧
      st₁.create_calls ≤ st.create_calls + 1 ∧
      ∀ n, st.title_to_number.lookup title = some n → n₁ = n ∧ st₁ = st := by
  cases hl : st.title_to_number.lookup title with
  | some m =>
    simp only [GithubMilestones.ensure, hl, Except.ok.injEq, Prod.mk.injEq] at h
    obtain ⟨rfl, rfl⟩ := h
    refine ⟨?_, by omega, ?_⟩
    · simp only [GithubMilestones.ensure, hl]
    · intro n hn
      injection hn with hn
      exact ⟨hn, rfl⟩
  | none =>
    simp only [GithubMilestones.ensure, hl] at h
    cases hc : GithubMilestones.create title web st with
    | error e => rw [hc] at h; exact absurd h (by simp)
    | ok p =>
      obtain ⟨number, st'⟩ := p
      rw [hc] at h
      simp only [Except.ok.injEq, Prod.mk.injEq] at h
      obtain ⟨rfl, rfl⟩ := h
      rw [GithubMilestones.create] at hc
      split at hc
      split at hc
      · exact absurd hc (by simp)
      · simp only [Except.ok.injEq, Prod.mk.injEq] at hc
        obtain ⟨rfl, rfl⟩ := hc
        refine ⟨?_, by simp, ?_⟩
        · simp [GithubMilestones.ensure, List.lookup]
        · intro n hn
          exact absurd hn (by simp)

/-- Witness for `ensure_idempotent` at a concrete run: the first call
    creates milestone number 7 for the title and the second call answers
    from the registry. -/
theorem ensure_idempotent_witness :
    GithubMilestones.ensure "v1".toList
        ⟨fun _ => 200, fun _ => (201, 7)⟩
        ⟨[], 0, [("v1".toList, 7)], 1⟩
      = .ok (7, ⟨[], 0, [("v1".toList, 7)], 1⟩) ∧
    (⟨[], 0, [("v1".toList, 7)], 1⟩ : ConvState).create_calls ≤ 0 + 1 ∧
    ∀ n, ([] : List (PyStr × Nat)).lookup "v1".toList = some n →
      7 = n ∧ (⟨[], 0, [("v1".toList, 7)], 1⟩ : ConvState) = ⟨[], 0, [], 0⟩ :=
  ensure_idempotent "v1".toList ⟨fun _ => 200, fun _ => (201, 7)⟩
    ⟨[], 0, [], 0⟩ ⟨[], 0, [("v1".toList, 7)], 1⟩ 7 (by decide)

/-- C8: for a username not in the `options.users` cache, `_gh_username`
    performs the existence check once: on 200 it caches and returns the
    username, on 404 it caches and returns the confirmed-absent sentinel
    `None`, and on any other status (including 403) it raises; a second
    resolution of the same username is answered from the cache with no
    further call (the state, including the call counter, is unchanged). -/
theorem gh_username_caches (username : PyStr) (web : Web) (st : ConvState)
    (h : st.users.lookup username = none) :
    (web.user_status username = 200 →
      ∃ st₁ : ConvState, gh_username username web st = .ok (some username, st₁)
        ∧ st₁.gh_calls = st.gh_calls + 1
        ∧ gh_username username web st₁ = .ok (some username, st₁)) ∧
    (web.user_status username = 404 →
      ∃ st₁ : ConvState, gh_username username web st = .ok (none, st₁)
        ∧ st₁.gh_calls = st.gh_calls + 1
        ∧ gh_username username web st₁ = .ok (none, st₁)) ∧
    (web.user_status username ≠ 200 → web.user_status username ≠ 404 →
      ∃ e, gh_username username web st = .error e) := by
  refine ⟨fun hs => ?_, fun hs => ?_, fun hs₁ hs₂ => ?_⟩
  · refine ⟨⟨(username, some username) :: st.users, st.gh_calls + 1,
      st.title_to_number, st.create_calls⟩, ?_, rfl, ?_⟩
    · simp only [gh_username, h, hs]
      rfl
    · simp [gh_username, List.lookup]
  · refine ⟨⟨(username, none) :: st.users, st.gh_calls + 1,
      st.title_to_number, st.create_calls⟩, ?_, rfl, ?_⟩
    · simp only [gh_username, h, hs]
      rfl
    · simp [gh_username, List.lookup]
  · simp only [gh_username, h]
    rw [if_neg hs₁, if_neg hs₂]
    split
    · exact ⟨_, rfl⟩
    · exact ⟨_, rfl⟩

/-- Witness for `gh_username_caches`: a fresh cache and an oracle
    answering 200. -/
theorem gh_username_caches_witness :
    ((fun _ => 200 : PyStr → Nat) "frank".toList = 200 →
      ∃ st₁ : ConvState,
        gh_username "frank".toList ⟨fun _ => 200, fun _ => (201, 7)⟩ ⟨[], 0, [], 0⟩
            = .ok (some "frank".toList, st₁)
          ∧ st₁.gh_calls = 0 + 1
          ∧ gh_username "frank".toList ⟨fun _ => 200, fun _ => (201, 7)⟩ st₁
              = .ok (some "frank".toList, st₁)) ∧
    ((fun _ => 200 : PyStr → Nat) "frank".toList = 404 →
      ∃ st₁ : ConvState,
        gh_username "frank".toList ⟨fun _ => 200, fun _ => (201, 7)⟩ ⟨[], 0, [], 0⟩
            = .ok (none, st₁)
          ∧ st₁.gh_calls = 0 + 1
          ∧ gh_username "frank".toList ⟨fun _ => 200, fun _ => (201, 7)⟩ st₁
              = .ok (none, st₁)) ∧
    ((fun _ => 200 : PyStr → Nat) "frank".toList ≠ 200 →
      (fun _ => 200 : PyStr → Nat) "frank".toList ≠ 404 →
      ∃ e, gh_username "frank".toList ⟨fun _ => 200, fun _ => (201, 7)⟩ ⟨[], 0, [], 0⟩
        = .error e) :=
  gh_username_caches "frank".toList ⟨fun _ => 200, fun _ => (201, 7)⟩ ⟨[], 0, [], 0⟩ rfl

/-- C9: in link-changesets mode `convert_changesets` is not total: a
    space-preceded hex token that is shorter than 8 characters and contains
    no digit makes the replacement function return Python `None`, so
    `re.sub` raises instead of leaving the token unchanged (first
    conjunct); qualifying tokens are rewritten into commit links (second
    conjunct). -/
theorem convert_changesets_crashes_on_short_hex :
    convert_changesets " facade".toList
        { bitbucket_repo := "u/r".toList, bb_skip := none, link_changesets := true }
      = .error "TypeError: expected str instance, NoneType found".toList ∧
    convert_changesets "x 22f3981d50c8 y".toList
        { bitbucket_repo := "u/r".toList, bb_skip := none, link_changesets := true }
      = .ok ("x [22f3981d50c8 (bb)](https://bitbucket.org/u/r/commits/22f3981d50c8) y".toList) := by
  constructor
  · decide
  · decide

theorem patMatch_self : ∀ (p rest : PyStr), patMatch p (p ++ rest) = some rest := by
  intro p
  induction p with
  | nil => intro rest; rfl
  | cons c cs ih =>
    intro rest
    simp only [List.cons_append, patMatch, or_true, if_true]
    exact ih rest

theorem takeWhile_append_of_all {p : Char → Bool} {l₁ : PyStr} (l₂ : PyStr)
    (h : ∀ c ∈ l₁, p c = true) :
    (l₁ ++ l₂).takeWhile p = l₁ ++ l₂.takeWhile p := by
  induction l₁ with
  | nil => simp
  | cons c cs ih =>
    have hc : p c = true := h c (by simp)
    simp [List.takeWhile_cons, hc, ih (fun x hx => h x (by simp [hx]))]

theorem takeWhile_eq_nil_of_head {p : Char → Bool} {l : PyStr}
    (h : ∀ c, l.head? = some c → p c = false) : l.takeWhile p = [] := by
  cases l with
  | nil => rfl
  | cons c cs => simp [List.takeWhile_cons, h c rfl]

theorem convert_links_go_skip (pat : PyStr) : ∀ (k : Nat) (s : PyStr),
    convert_links_go pat k s = convert_links_go pat 0 (s.drop k) := by
  intro k
  induction k with
  | zero => intro s; rfl
  | succ n ih =>
    intro s
    cases s with
    | nil => rfl
    | cons c rest => simpa [convert_links_go] using ih rest

theorem convert_links_map_none_eq (pat : PyStr) : ∀ (s : PyStr) (skip : Nat),
    convert_links_map_go (fun _ => none) pat skip s = convert_links_go pat skip s := by
  intro s
  induction s with
  | nil => intro skip; cases skip <;> rfl
  | cons c rest ih =>
    intro skip
    cases skip with
    | succ k =>
      simp only [convert_links_go, convert_links_map_go]
      exact ih k
    | zero =>
      simp only [convert_links_go, convert_links_map_go]
      cases patMatch pat (c :: rest) with
      | none => simp only [ih 0]
      | some after =>
        by_cases hds : after.takeWhile Char.isDigit = []
        · simp [hds, ih 0]
        · simp [hds, ih]

/-- C2 counterexample: `convert_links` consults no source-to-target map;
    with the map sending 42 to 99 the claim demands `#99`, but the code
    rewrites the URL to `#42`, the source identifier verbatim. -/
theorem convert_links_ignores_map :
    convert_links "https://bitbucket.org/u/r/issue/42".toList
        { bitbucket_repo := "u/r".toList, bb_skip := none, link_changesets := false }
      = "#42".toList ∧
    convert_links_map (fun n => if n = 42 then some 99 else none)
        { bitbucket_repo := "u/r".toList, bb_skip := none, link_changesets := false }
        "https://bitbucket.org/u/r/issue/42".toList
      = "#99".toList ∧
    ("#42".toList : PyStr) ≠ "#99".toList := by
  refine ⟨by decide, by decide, by decide⟩

/-- C2 (amended): `convert_links` replaces each occurrence of
    `https://bitbucket.org/<repo>/issue/<n>` with `#<n>`, the source
    identifier verbatim; it consults no source-to-target map, i.e. it
    coincides with the spec's map-consulting rewriting when that map has no
    entries (the fallback path of the claim). -/
theorem convert_links_verbatim :
    (∀ (options : Options) (content : PyStr),
      convert_links content options = convert_links_map (fun _ => none) options content) ∧
    (∀ (options : Options) (ds b : PyStr), ds ≠ [] →
      (∀ c ∈ ds, c.isDigit = true) →
      (∀ c, b.head? = some c → c.isDigit = false) →
      convert_links (linkPat options.bitbucket_repo ++ ds ++ b) options
        = '#' :: ds ++ convert_links b options) := by
  constructor
  · intro options content
    exact (convert_links_map_none_eq _ content 0).symm
  · intro options ds b hne hds hb
    set pat := linkPat options.bitbucket_repo with hpat
    have hpatne : pat ≠ [] := by simp [hpat, linkPat]
    obtain ⟨p₀, pt, hp⟩ : ∃ p₀ pt, pat = p₀ :: pt := by
      cases hc : pat with
      | nil => exact absurd hc hpatne
      | cons a l => exact ⟨a, l, rfl⟩
    show convert_links_go pat 0 (pat ++ ds ++ b) = _
    have hassoc : pat ++ ds ++ b = p₀ :: (pt ++ (ds ++ b)) := by
      rw [hp]; simp
    rw [hassoc]
    have hm : patMatch pat (p₀ :: (pt ++ (ds ++ b))) = some (ds ++ b) := by
      rw [hp]
      have := patMatch_self (p₀ :: pt) (ds ++ b)
      rwa [List.cons_append] at this
    simp only [convert_links_go, hm]
    have htw : (ds ++ b).takeWhile Char.isDigit = ds := by
      rw [takeWhile_append_of_all b hds, takeWhile_eq_nil_of_head hb, List.append_nil]
    rw [htw]
    simp only [hne, if_false]
    have hskip : pat.length + ds.length - 1 = pt.length + ds.length := by
      rw [hp]; simp only [List.length_cons]; omega
    rw [hskip, convert_links_go_skip]
    have hdrop : (pt ++ (ds ++ b)).drop (pt.length + ds.length) = b := by
      rw [← List.drop_drop, List.drop_left]
      exact List.drop_left ds b
    rw [hdrop]
    rfl

/-- Witness for `convert_links_verbatim`: both conjuncts applied at a
    concrete repository, URL and tail. -/
theorem convert_links_verbatim_witness :
    convert_links "see https://bitbucket.org/u/r/issue/7".toList
        ⟨"u/r".toList, none, false⟩
      = convert_links_map (fun _ => none) ⟨"u/r".toList, none, false⟩
          "see https://bitbucket.org/u/r/issue/7".toList ∧
    convert_links (linkPat "u/r".toList ++ "42".toList ++ " x".toList)
        ⟨"u/r".toList, none, false⟩
      = '#' :: "42".toList ++ convert_links " x".toList ⟨"u/r".toList, none, false⟩ :=
  ⟨convert_links_verbatim.1 ⟨"u/r".toList, none, false⟩ _,
   convert_links_verbatim.2 ⟨"u/r".toList, none, false⟩ "42".toList " x".toList
     (by decide) (by decide) (by decide)⟩

theorem isPrefixOf_ex {l s : PyStr} : l.isPrefixOf s = true ↔ ∃ t, s = l ++ t := by
  induction l generalizing s with
  | nil => simp [List.isPrefixOf]
  | cons c cs ih =>
    cases s with
    | nil => simp [List.isPrefixOf]
    | cons d ds =>
      simp only [List.isPrefixOf, Bool.and_eq_true, beq_iff_eq, ih, List.cons_append,
        List.cons.injEq]
      constructor
      · rintro ⟨rfl, t, rfl⟩; exact ⟨t, rfl, rfl⟩
      · rintro ⟨t, rfl, rfl⟩; exact ⟨rfl, t, rfl⟩

theorem containsTok_parts (tok : PyStr) : ∀ (u w : PyStr),
    containsTok tok (u ++ tok ++ w) = true := by
  intro u
  induction u with
  | nil =>
    intro w
    cases htok : tok with
    | nil => cases w <;> simp [containsTok, List.isPrefixOf]
    | cons c cs =>
      simp only [List.nil_append, List.cons_append, containsTok, Bool.or_eq_true]
      exact Or.inl (isPrefixOf_ex.mpr ⟨w, by simp⟩)
  | cons c u' ih =>
    intro w
    simp only [List.cons_append, containsTok, Bool.or_eq_true]
    exact Or.inr (ih w)

theorem containsTok_ex {tok l : PyStr} (h : containsTok tok l = true) :
    ∃ u w, l = u ++ tok ++ w := by
  induction l with
  | nil =>
    simp only [containsTok] at h
    obtain ⟨t, ht⟩ := isPrefixOf_ex.mp h
    cases tok with
    | nil => exact ⟨[], [], by simp⟩
    | cons c cs => simp at ht
  | cons c rest ih =>
    simp only [containsTok, Bool.or_eq_true] at h
    cases h with
    | inl h =>
      obtain ⟨t, ht⟩ := isPrefixOf_ex.mp h
      exact ⟨[], t, by simp [ht]⟩
    | inr h =>
      obtain ⟨u, w, huw⟩ := ih h
      exact ⟨c :: u, w, by simp [huw]⟩

theorem containsTok_mid {tok s l u w : PyStr} (h : containsTok tok s = false)
    (hs : s = u ++ l ++ w) : containsTok tok l = false := by
  by_contra hc
  obtain ⟨a, b, hab⟩ := containsTok_ex (Bool.not_eq_false _ ▸ hc)
  have : containsTok tok s = true := by
    rw [hs, hab]
    have := containsTok_parts tok (u ++ a) (b ++ w)
    simpa using this
  rw [this] at h
  exact Bool.true_eq_false ▸ h

theorem splitlines_nil_iff {s : PyStr} : splitlines s = [] ↔ s = [] := by
  constructor
  · intro h
    cases s with
    | nil => rfl
    | cons c rest =>
      rw [splitlines] at h
      by_cases hc : c = '\n'
      · simp [hc] at h
      · simp only [hc, if_false] at h
        split at h <;> simp_all
  · intro h; rw [h]; rfl

theorem splitlines_cons_newline {l₁ : PyStr} (rest : PyStr) (h : '\n' ∉ l₁) :
    splitlines (l₁ ++ '\n' :: rest) = l₁ :: splitlines rest := by
  induction l₁ with
  | nil => simp [splitlines]
  | cons c l' ih =>
    have hc : c ≠ '\n' := fun hx => h (by simp [hx])
    rw [List.cons_append, splitlines]
    simp only [hc, if_false]
    rw [ih (fun hx => h (by simp [hx]))]

theorem splitlines_no_newline {l : PyStr} (h : '\n' ∉ l) (hne : l ≠ []) :
    splitlines l = [l] := by
  induction l with
  | nil => exact absurd rfl hne
  | cons c rest ih =>
    have hc : c ≠ '\n' := fun hx => h (by simp [hx])
    rw [splitlines]
    simp only [hc, if_false]
    cases hr : rest with
    | nil => simp [splitlines_nil_iff.mpr rfl]
    | cons d ds =>
      rw [← hr, ih (fun hx => h (by simp [hx])) (by simp [hr])]

theorem splitlines_head_pre : ∀ {s l₀ : PyStr} {ls : List PyStr},
    splitlines s = l₀ :: ls → ∃ w, s = l₀ ++ w := by
  intro s
  induction s with
  | nil => intro l₀ ls h; simp [splitlines] at h
  | cons c rest ih =>
    intro l₀ ls h
    rw [splitlines] at h
    by_cases hc : c = '\n'
    · simp only [hc, if_true] at h
      cases h
      exact ⟨'\n' :: rest, by simp [hc]⟩
    · simp only [hc, if_false] at h
      split at h
      · cases h
        exact ⟨rest, rfl⟩
      · rename_i l ls' heq
        cases h
        obtain ⟨w, hw⟩ := ih heq
        exact ⟨w, by simp [hw]⟩

theorem splitlines_infix : ∀ {s l : PyStr}, l ∈ splitlines s →
    ∃ u w, s = u ++ l ++ w := by
  intro s
  induction s with
  | nil => intro l h; simp [splitlines] at h
  | cons c rest ih =>
    intro l h
    rw [splitlines] at h
    by_cases hc : c = '\n'
    · simp only [hc, if_true, List.mem_cons] at h
      cases h with
      | inl h => exact ⟨[], '\n' :: rest, by simp [h, hc]⟩
      | inr h =>
        obtain ⟨u, w, huw⟩ := ih h
        exact ⟨c :: u, w, by simp [huw]⟩
    · simp only [hc, if_false] at h
      split at h
      · rename_i heq
        simp only [List.mem_singleton] at h
        subst h
        have : rest = [] := splitlines_nil_iff.mp heq
        exact ⟨[], [], by simp [this]⟩
      · rename_i l₀ ls heq
        simp only [List.mem_cons] at h
        cases h with
        | inl h =>
          subst h
          obtain ⟨w, hw⟩ := splitlines_head_pre heq
          exact ⟨[], w, by simp [hw]⟩
        | inr h =>
          have hmem : l ∈ splitlines rest := by rw [heq]; exact List.mem_cons_of_mem _ h
          obtain ⟨u, w, huw⟩ := ih hmem
          exact ⟨c :: u, w, by simp [huw]⟩

theorem joinLines_splitlines : ∀ {s : PyStr}, s.getLast? ≠ some '\n' →
    joinLines (splitlines s) = s := by
  intro s
  induction s with
  | nil => intro _; rfl
  | cons c rest ih =>
    intro h
    rw [splitlines]
    by_cases hc : c = '\n'
    · subst hc
      rw [if_pos rfl]
      cases hr : rest with
      | nil => subst hr; simp at h
      | cons d ds =>
        have hrne : rest ≠ [] := by rw [hr]; simp
        have hrest : rest.getLast? ≠ some '\n' := by
          rw [hr] at h ⊢
          rwa [List.getLast?_cons_cons] at h
        rw [← hr]
        cases hsl : splitlines rest with
        | nil => exact absurd (splitlines_nil_iff.mp hsl) hrne
        | cons l ls =>
          have hj : joinLines (l :: ls) = rest := by rw [← hsl]; exact ih hrest
          show joinLines ([] :: l :: ls) = '\n' :: rest
          rw [joinLines, hj]
          rfl
    · simp only [hc, if_false]
      cases hr : rest with
      | nil =>
        subst hr
        show joinLines (match splitlines [] with
          | [] => [[c]]
          | l :: ls => (c :: l) :: ls) = [c]
        rfl
      | cons d ds =>
        have hrne : rest ≠ [] := by rw [hr]; simp
        have hrest : rest.getLast? ≠ some '\n' := by
          rw [hr] at h ⊢
          rwa [List.getLast?_cons_cons] at h
        rw [← hr]
        cases hsl : splitlines rest with
        | nil => exact absurd (splitlines_nil_iff.mp hsl) hrne
        | cons l ls =>
          have hj : joinLines (l :: ls) = rest := by rw [← hsl]; exact ih hrest
          show joinLines ((c :: l) :: ls) = c :: rest
          cases ls with
          | nil =>
            rw [joinLines] at hj ⊢
            rw [hj]
          | cons l₂ ls' =>
            rw [joinLines] at hj ⊢
            rw [List.cons_append, hj]

theorem splitlines_joinLines : ∀ (lines : List PyStr),
    (∀ l ∈ lines, '\n' ∉ l) → lines.getLastD ['x'] ≠ [] →
    splitlines (joinLines lines) = lines := by
  intro lines
  induction lines with
  | nil => intro _ _; rfl
  | cons l ls ih =>
    intro hnl hlast
    cases ls with
    | nil =>
      rw [joinLines]
      exact splitlines_no_newline (hnl l (by simp)) (by simpa using hlast)
    | cons l₂ ls' =>
      rw [joinLines, splitlines_cons_newline _ (hnl l (by simp))]
      rw [ih (fun x hx => hnl x (by simp [hx])) (by simpa using hlast)]

theorem containsTok_isPrefixOf_false {tok s : PyStr} (h : containsTok tok s = false) :
    tok.isPrefixOf s = false := by
  cases s with
  | nil => simpa [containsTok] using h
  | cons c rest =>
    simp only [containsTok, Bool.or_eq_false_iff] at h
    exact h.1

theorem containsTok_tail {tok : PyStr} {c : Char} {rest : PyStr}
    (h : containsTok tok (c :: rest) = false) : containsTok tok rest = false := by
  simp only [containsTok, Bool.or_eq_false_iff] at h
  exact h.2

theorem pyReplaceGo_no_occ {tok rep : PyStr} : ∀ {s : PyStr},
    containsTok tok s = false → pyReplaceGo tok rep 0 s = s := by
  intro s
  induction s with
  | nil => intro _; rfl
  | cons c rest ih =>
    intro h
    rw [pyReplaceGo, if_neg]
    · rw [ih (containsTok_tail h)]
    · intro hcond
      have hx := hcond.2
      rw [containsTok_isPrefixOf_false h] at hx
      simp at hx

theorem pyReplace_no_occ {tok rep s : PyStr} (h : containsTok tok s = false) :
    pyReplace tok rep s = s := pyReplaceGo_no_occ h

theorem creole_step_plain {l : PyStr} (ho : containsTok tokOpen l = false)
    (hc : containsTok tokClose l = false) :
    creole_step false l = ([l], false) := by
  rw [creole_step, if_neg, if_neg]
  · rw [pyReplace_no_occ ho, pyReplace_no_occ hc]
  · simp
  · rintro (hp | hp)
    · rw [containsTok_isPrefixOf_false ho] at hp; simp at hp
    · rw [containsTok_isPrefixOf_false hc] at hp; simp at hp

theorem creole_lines_plain : ∀ {ls : List PyStr},
    (∀ l ∈ ls, containsTok tokOpen l = false ∧ containsTok tokClose l = false) →
    creole_lines false ls = ls := by
  intro ls
  induction ls with
  | nil => intro _; rfl
  | cons l ls' ih =>
    intro h
    rw [creole_lines, creole_step_plain (h l (by simp)).1 (h l (by simp)).2]
    show [l] ++ creole_lines false ls' = l :: ls'
    rw [ih (fun x hx => h x (by simp [hx]))]
    rfl

theorem creole_id_of_no_tok {s : PyStr} (ho : containsTok tokOpen s = false)
    (hc : containsTok tokClose s = false) (hnl : s.getLast? ≠ some '\n') :
    convert_creole_braces s = s := by
  rw [convert_creole_braces, creole_lines_plain]
  · exact joinLines_splitlines hnl
  · intro l hl
    obtain ⟨u, w, huw⟩ := splitlines_infix hl
    exact ⟨containsTok_mid ho huw, containsTok_mid hc huw⟩

/-- C10 counterexample: the output of the transform on `"a\n\n"` is
    `"a\n"`, which contains no triple-brace token, yet a second application
    drops the trailing newline (Python `splitlines`/`join` are not mutually
    inverse on newline-terminated text), so the transform is not idempotent
    on its own token-free output. -/
theorem creole_not_idempotent :
    convert_creole_braces "a\n\n".toList = "a\n".toList ∧
    containsTok tokOpen (convert_creole_braces "a\n\n".toList) = false ∧
    containsTok tokClose (convert_creole_braces "a\n\n".toList) = false ∧
    convert_creole_braces (convert_creole_braces "a\n\n".toList)
      ≠ convert_creole_braces "a\n\n".toList := by
  refine ⟨by decide, by decide, by decide, by decide⟩

/-- C10 (amended): applying `convert_creole_braces` a second time to an
    output that contains no remaining triple-brace token returns it
    unchanged, provided the output does not end with a newline character
    (an output ending in a newline loses that final newline instead). -/
theorem creole_idempotent_on_clean_output (x : PyStr)
    (ho : containsTok tokOpen (convert_creole_braces x) = false)
    (hc : containsTok tokClose (convert_creole_braces x) = false)
    (hnl : (convert_creole_braces x).getLast? ≠ some '\n') :
    convert_creole_braces (convert_creole_braces x) = convert_creole_braces x :=
  creole_id_of_no_tok ho hc hnl

/-- Witness for `creole_idempotent_on_clean_output` at a concrete
    two-line input. -/
theorem creole_idempotent_on_clean_output_witness :
    convert_creole_braces (convert_creole_braces "hello\nworld".toList)
      = convert_creole_braces "hello\nworld".toList :=
  creole_idempotent_on_clean_output "hello\nworld".toList
    (by decide) (by decide) (by decide)

theorem isPrefixOf_false_of_head {x c : Char} {ts s : PyStr} (h : x ≠ c) :
    (x :: ts).isPrefixOf (c :: s) = false := by
  simp [List.isPrefixOf, h]

theorem containsTok_charfree {x : Char} {ts : PyStr} : ∀ {s : PyStr}, x ∉ s →
    containsTok (x :: ts) s = false := by
  intro s
  induction s with
  | nil => intro _; rfl
  | cons c rest ih =>
    intro h
    have hxc : x ≠ c := fun e => h (by simp [e])
    simp only [containsTok, Bool.or_eq_false_iff]
    exact ⟨isPrefixOf_false_of_head hxc, ih (fun hx => h (by simp [hx]))⟩

theorem pyReplace3_append {x : Char} (rep t : PyStr) : ∀ {a : PyStr}, x ∉ a →
    pyReplaceGo [x, x, x] rep 0 (a ++ ([x, x, x] ++ t))
      = a ++ (rep ++ pyReplaceGo [x, x, x] rep 0 t) := by
  intro a
  induction a with
  | nil =>
    intro _
    show pyReplaceGo [x, x, x] rep 0 (x :: x :: x :: t)
      = rep ++ pyReplaceGo [x, x, x] rep 0 t
    rw [pyReplaceGo, if_pos]
    · rfl
    · exact ⟨by simp, isPrefixOf_ex.mpr ⟨t, by simp⟩⟩
  | cons c a' ih =>
    intro h
    have hxc : x ≠ c := fun e => h (by simp [e])
    show pyReplaceGo [x, x, x] rep 0 (c :: (a' ++ ([x, x, x] ++ t))) = _
    rw [pyReplaceGo, if_neg]
    · rw [ih (fun hx => h (by simp [hx]))]
      rfl
    · rintro ⟨-, hpre⟩
      rw [isPrefixOf_false_of_head hxc] at hpre
      simp at hpre

theorem creole_step_inline (a b c : PyStr) (ha : a ≠ [])
    (ha7 : '\x7b' ∉ a) (ha8 : '\x7d' ∉ a) (hb7 : '\x7b' ∉ b) (hb8 : '\x7d' ∉ b)
    (hc7 : '\x7b' ∉ c) (hc8 : '\x7d' ∉ c) :
    creole_step false (a ++ tokOpen ++ b ++ tokClose ++ c)
      = ([a ++ backtick ++ b ++ backtick ++ c], false) := by
  obtain ⟨a₀, a', rfl⟩ : ∃ a₀ a', a = a₀ :: a' := by
    cases a with
    | nil => exact absurd rfl ha
    | cons y ys => exact ⟨y, ys, rfl⟩
  have h0 : ('\x7b' : Char) ≠ a₀ := fun e => ha7 (by simp [← e])
  have h1 : ('\x7d' : Char) ≠ a₀ := fun e => ha8 (by simp [← e])
  have hhead : ((a₀ :: a') ++ tokOpen ++ b ++ tokClose ++ c)
      = a₀ :: (a' ++ (tokOpen ++ (b ++ (tokClose ++ c)))) := by simp
  rw [creole_step, if_neg, if_neg]
  · have e1 : pyReplace tokOpen backtick ((a₀ :: a') ++ tokOpen ++ b ++ tokClose ++ c)
        = (a₀ :: a') ++ (backtick ++ (b ++ (tokClose ++ c))) := by
      rw [pyReplace, hhead]
      have := pyReplace3_append (x := '\x7b') backtick (b ++ (tokClose ++ c))
        (a := a₀ :: a') ha7
      rw [show ([('\x7b' : Char), '\x7b', '\x7b'] : PyStr) = tokOpen from rfl] at this
      rw [show (a₀ :: (a' ++ (tokOpen ++ (b ++ (tokClose ++ c)))))
        = (a₀ :: a') ++ (tokOpen ++ (b ++ (tokClose ++ c))) from rfl]
      rw [this]
      have hno : containsTok tokOpen (b ++ (tokClose ++ c)) = false := by
        apply containsTok_charfree
        simp only [List.mem_append]
        rintro (hx | hx | hx)
        · exact hb7 hx
        · revert hx; decide
        · exact hc7 hx
      rw [show pyReplaceGo tokOpen backtick 0 (b ++ (tokClose ++ c))
        = pyReplace tokOpen backtick (b ++ (tokClose ++ c)) from rfl]
      rw [pyReplace_no_occ hno]
    rw [e1]
    have e2 : pyReplace tokClose backtick
        ((a₀ :: a') ++ (backtick ++ (b ++ (tokClose ++ c))))
        = (a₀ :: a') ++ (backtick ++ (b ++ (backtick ++ c))) := by
      rw [pyReplace]
      have hmem : ('\x7d' : Char) ∉ (a₀ :: a') ++ (backtick ++ b) := by
        simp only [List.mem_append]
        rintro (hx | hx | hx)
        · exact ha8 hx
        · revert hx; decide
        · exact hb8 hx
      have := pyReplace3_append (x := '\x7d') backtick c
        (a := (a₀ :: a') ++ (backtick ++ b)) hmem
      rw [show ([('\x7d' : Char), '\x7d', '\x7d'] : PyStr) = tokClose from rfl] at this
      rw [show ((a₀ :: a') ++ (backtick ++ (b ++ (tokClose ++ c))))
        = ((a₀ :: a') ++ (backtick ++ b)) ++ (tokClose ++ c) from by simp]
      rw [this]
      rw [show pyReplaceGo tokClose backtick 0 c = pyReplace tokClose backtick c from rfl]
      have hnoc : containsTok tokClose c = false := by
        rw [show tokClose = '\x7d' :: ['\x7d', '\x7d'] from rfl]
        exact containsTok_charfree hc8
      rw [pyReplace_no_occ hnoc]
      simp
    rw [e2]
    simp
  · simp
  · rw [hhead]
    rintro (hp | hp)
    · rw [show tokOpen = '\x7b' :: ['\x7b', '\x7b'] from rfl,
        isPrefixOf_false_of_head h0] at hp
      simp at hp
    · rw [show tokClose = '\x7d' :: ['\x7d', '\x7d'] from rfl,
        isPrefixOf_false_of_head h1] at hp
      simp at hp

theorem creole_step_inblock (l : PyStr) (ho : tokOpen.isPrefixOf l = false)
    (hc : tokClose.isPrefixOf l = false) :
    creole_step true l = ([indent4 ++ l], true) := by
  rw [creole_step, if_neg, if_pos rfl]
  rintro (hp | hp)
  · rw [ho] at hp; simp at hp
  · rw [hc] at hp; simp at hp

theorem creole_lines_block : ∀ (cs : List PyStr),
    (∀ l ∈ cs, tokOpen.isPrefixOf l = false ∧ tokClose.isPrefixOf l = false) →
    creole_lines true (cs ++ [tokClose])
      = cs.map (fun l => indent4 ++ l) ++ [indent4] := by
  intro cs
  induction cs with
  | nil => intro _; decide
  | cons l cs' ih =>
    intro h
    rw [List.cons_append, creole_lines,
      creole_step_inblock l (h l (by simp)).1 (h l (by simp)).2]
    show [indent4 ++ l] ++ creole_lines true (cs' ++ [tokClose]) = _
    rw [ih (fun x hx => h x (by simp [hx]))]
    simp

theorem creole_block (cs : List PyStr)
    (h : ∀ l ∈ cs, tokOpen.isPrefixOf l = false ∧ tokClose.isPrefixOf l = false
      ∧ '\n' ∉ l) :
    convert_creole_braces (joinLines (tokOpen :: cs ++ [tokClose]))
      = joinLines (indent4 :: cs.map (fun l => indent4 ++ l) ++ [indent4]) := by
  rw [convert_creole_braces, splitlines_joinLines]
  · rw [show tokOpen :: cs ++ [tokClose] = tokOpen :: (cs ++ [tokClose]) from rfl,
      creole_lines, show creole_step false tokOpen = ([indent4], true) from by decide]
    show joinLines ([indent4] ++ creole_lines true (cs ++ [tokClose])) = _
    rw [creole_lines_block cs (fun l hl => ⟨(h l hl).1, (h l hl).2.1⟩)]
    rfl
  · intro l hl
    simp only [List.mem_cons, List.mem_append, List.mem_singleton] at hl
    rcases hl with (rfl | hl) | (rfl | hl)
    · decide
    · exact (h l hl).2.2
    · decide
    · simp at hl
  · rw [show (tokOpen :: cs ++ [tokClose] : List PyStr)
        = (tokOpen :: cs) ++ [tokClose] from by simp,
      List.getLastD_eq_getLast?, List.getLast?_concat]
    decide

/-- C3 counterexample: a line consisting of a same-line
    open+content+close occurrence that starts with the open token is not
    converted to inline backtick code; the line-start branch fires instead
    and emits two indented fragments with the tokens not stripped. -/
theorem creole_same_line_at_start_mangled :
    convert_creole_braces "\x7b\x7b\x7bx\x7d\x7d\x7d".toList
      = "    x\x7d\x7d\x7d\n    \x7b\x7b\x7bx".toList ∧
    convert_creole_braces "\x7b\x7b\x7bx\x7d\x7d\x7d".toList ≠ "\x60x\x60".toList := by
  refine ⟨by decide, by decide⟩

/-- C3 (amended): outside a block, a same-line open+content+close
    occurrence on a line that does not begin with a triple-brace token
    becomes inline code delimited by single backticks (first conjunct); a
    multi-line block (open token on its own line, content lines not
    starting with a token, close token on its own line) becomes 4-space
    indented lines with the token lines reduced to the indent (second
    conjunct); and an ordinary line while the inside-code-block flag is set
    is indented without backtick wrapping, the flag staying set (third
    conjunct).  A line that begins with a token is instead handled by the
    block logic even if both tokens occur on it. -/
theorem creole_braces_behaviour :
    (∀ a b c : PyStr, a ≠ [] →
      '\x7b' ∉ a → '\x7d' ∉ a → '\x7b' ∉ b → '\x7d' ∉ b → '\x7b' ∉ c → '\x7d' ∉ c →
      creole_step false (a ++ tokOpen ++ b ++ tokClose ++ c)
        = ([a ++ backtick ++ b ++ backtick ++ c], false)) ∧
    (∀ cs : List PyStr,
      (∀ l ∈ cs, tokOpen.isPrefixOf l = false ∧ tokClose.isPrefixOf l = false
        ∧ '\n' ∉ l) →
      convert_creole_braces (joinLines (tokOpen :: cs ++ [tokClose]))
        = joinLines (indent4 :: cs.map (fun l => indent4 ++ l) ++ [indent4])) ∧
    (∀ l : PyStr, tokOpen.isPrefixOf l = false → tokClose.isPrefixOf l = false →
      creole_step true l = ([indent4 ++ l], true)) :=
  ⟨creole_step_inline, creole_block, creole_step_inblock⟩

/-- Witness for `creole_braces_behaviour`: the three conjuncts applied at
    a concrete inline line, a concrete two-content-line block and a
    concrete ordinary in-block line. -/
theorem creole_braces_behaviour_witness :
    creole_step false ("use ".toList ++ tokOpen ++ "x".toList ++ tokClose ++ " now".toList)
      = (["use ".toList ++ backtick ++ "x".toList ++ backtick ++ " now".toList], false) ∧
    convert_creole_braces
        (joinLines (tokOpen :: ["code one".toList, "code two".toList] ++ [tokClose]))
      = joinLines (indent4 ::
          ["code one".toList, "code two".toList].map (fun l => indent4 ++ l) ++ [indent4]) ∧
    creole_step true "plain".toList = ([indent4 ++ "plain".toList], true) :=
  ⟨creole_braces_behaviour.1 "use ".toList "x".toList " now".toList
      (by decide) (by decide) (by decide) (by decide) (by decide) (by decide) (by decide),
   creole_braces_behaviour.2.1 ["code one".toList, "code two".toList] (by decide),
   creole_braces_behaviour.2.2 "plain".toList (by decide) (by decide)⟩

theorem labelValue_clean (v : PyStr) :
    ',' ∉ labelValue v ∧ (labelValue v).length ≤ 50 := by
  constructor
  · intro hmem
    have hf := List.of_mem_filter (List.mem_of_mem_take hmem)
    simp at hf
  · rw [labelValue, List.length_take]
    exact min_le_left _ _

/-- C4 counterexample: the priority is appended to the label list raw,
    with no comma stripping and no 50-character truncation; an issue whose
    priority is 52 characters long and contains a comma yields exactly that
    string as its (only) label. -/
theorem convert_issue_priority_unsanitized :
    (convert_issue (.real {
        id := 1, title := "t".toList, content_raw := [], state := "open".toList,
        created_on := "2012-11-26T09:59:39+00:00".toList,
        updated_on := "2012-11-26T09:59:39+00:00".toList,
        reporter := none, assignee := none, priority := cexPriority,
        component := none, kind := none, version := none, milestone := none })
        [] [] ⟨"u/r".toList, none, false⟩ [] []
        ⟨fun _ => 200, fun _ => (201, 1)⟩ ⟨[], 0, [], 0⟩).map (fun p => p.1.labels)
      = .ok [cexPriority] ∧
    ',' ∈ cexPriority ∧ 50 < cexPriority.length := by
  refine ⟨by decide, by decide, by decide⟩

/-- C4 (amended): for a real issue whose conversion succeeds, the labels
    are the priority verbatim (unsanitised) followed by, in order, the
    present component/kind/version values, each with commas removed and
    then truncated to at most 50 characters; hence every label after the
    first contains no comma and has length at most 50. -/
theorem convert_issue_labels (issue : BBIssue) (comments : List BBComment)
    (changes : List BBChange) (options : Options) (attach_names : List PyStr)
    (users : List (PyStr × PyStr)) (web : Web) (st : ConvState)
    (out : GHIssue) (st' : ConvState)
    (h : convert_issue (.real issue) comments changes options attach_names
      users web st = .ok (out, st')) :
    out.labels = issue.priority ::
      ((match issue.component with | some v => [labelValue v.name] | none => []) ++
       (match issue.kind with | some v => [labelValue v] | none => []) ++
       (match issue.version with | some v => [labelValue v.name] | none => [])) ∧
    ∀ l ∈ out.labels.tail, ',' ∉ l ∧ l.length ≤ 50 := by
  have hmain : out.labels = issue.priority ::
      ((match issue.component with | some v => [labelValue v.name] | none => []) ++
       (match issue.kind with | some v => [labelValue v] | none => []) ++
       (match issue.version with | some v => [labelValue v.name] | none => [])) := by
    simp only [convert_issue] at h
    cases hfb : format_issue_body issue attach_names options web st with
    | error e => rw [hfb] at h; simp at h
    | ok p =>
      obtain ⟨body, st₁⟩ := p
      simp only [hfb] at h
      cases hcd : convert_date issue.created_on with
      | error e => rw [hcd] at h; simp at h
      | ok created =>
        simp only [hcd] at h
        cases hud : convert_date issue.updated_on with
        | error e => rw [hud] at h; simp at h
        | ok updated =>
          simp only [hud] at h
          split at h
          · simp at h
          · rename_i o heq
            split at heq
            · split at heq
              · simp at heq
              · split at heq
                · injection heq with heq'
                  subst heq'
                  split at h
                  · split at h
                    · split at h
                      · simp at h
                      · simp only [Except.ok.injEq, Prod.mk.injEq] at h
                        obtain ⟨h1, -⟩ := h
                        subst h1
                        cases issue.component <;> cases issue.kind <;>
                          cases issue.version <;> simp
                    · simp only [Except.ok.injEq, Prod.mk.injEq] at h
                      obtain ⟨h1, -⟩ := h
                      subst h1
                      cases issue.component <;> cases issue.kind <;>
                        cases issue.version <;> simp
                  · simp only [Except.ok.injEq, Prod.mk.injEq] at h
                    obtain ⟨h1, -⟩ := h
                    subst h1
                    cases issue.component <;> cases issue.kind <;>
                      cases issue.version <;> simp
                · injection heq with heq'
                  subst heq'
                  split at h
                  · split at h
                    · split at h
                      · simp at h
                      · simp only [Except.ok.injEq, Prod.mk.injEq] at h
                        obtain ⟨h1, -⟩ := h
                        subst h1
                        cases issue.component <;> cases issue.kind <;>
                          cases issue.version <;> simp
                    · simp only [Except.ok.injEq, Prod.mk.injEq] at h
                      obtain ⟨h1, -⟩ := h
                      subst h1
                      cases issue.component <;> cases issue.kind <;>
                        cases issue.version <;> simp
                  · simp only [Except.ok.injEq, Prod.mk.injEq] at h
                    obtain ⟨h1, -⟩ := h
                    subst h1
                    cases issue.component <;> cases issue.kind <;>
                      cases issue.version <;> simp
            · injection heq with heq'
              subst heq'
              split at h
              · split at h
                · split at h
                  · simp at h
                  · simp only [Except.ok.injEq, Prod.mk.injEq] at h
                    obtain ⟨h1, -⟩ := h
                    subst h1
                    cases issue.component <;> cases issue.kind <;>
                      cases issue.version <;> simp
                · simp only [Except.ok.injEq, Prod.mk.injEq] at h
                  obtain ⟨h1, -⟩ := h
                  subst h1
                  cases issue.component <;> cases issue.kind <;>
                    cases issue.version <;> simp
              · simp only [Except.ok.injEq, Prod.mk.injEq] at h
                obtain ⟨h1, -⟩ := h
                subst h1
                cases issue.component <;> cases issue.kind <;>
                  cases issue.version <;> simp
  refine ⟨hmain, ?_⟩
  rw [hmain]
  intro l hl
  simp only [List.tail_cons, List.mem_append] at hl
  rcases hl with (hl | hl) | hl
  · cases hcomp : issue.component with
    | none => rw [hcomp] at hl; simp at hl
    | some v =>
      rw [hcomp] at hl
      simp only [List.mem_singleton] at hl
      subst hl
      exact labelValue_clean _
  · cases hkind : issue.kind with
    | none => rw [hkind] at hl; simp at hl
    | some v =>
      rw [hkind] at hl
      simp only [List.mem_singleton] at hl
      subst hl
      exact labelValue_clean _
  · cases hver : issue.version with
    | none => rw [hver] at hl; simp at hl
    | some v =>
      rw [hver] at hl
      simp only [List.mem_singleton] at hl
      subst hl
      exact labelValue_clean _

/-- Witness for `convert_issue_labels` at the concrete issue `wIssue`,
    which carries a comma-bearing component and a kind. -/
theorem convert_issue_labels_witness :
    wOut.labels = "major".toList ::
      (([labelValue "core, stuff".toList]) ++ ([labelValue "bug".toList])
        ++ ([] : List PyStr)) ∧
    ∀ l ∈ wOut.labels.tail, ',' ∉ l ∧ l.length ≤ 50 :=
  convert_issue_labels wIssue [] [] ⟨"u/r".toList, none, false⟩ [] []
    ⟨fun _ => 200, fun _ => (201, 1)⟩ ⟨[], 0, [], 0⟩ wOut ⟨[], 0, [], 0⟩ (by decide)

theorem strLe_trans : ∀ (a b c : PyStr), strLe a b = true → strLe b c = true →
    strLe a c = true := by
  intro a b c hab hbc
  simp only [strLe, decide_eq_true_eq] at *
  exact le_trans hab hbc

theorem strLe_total : ∀ (a b : PyStr), (strLe a b || strLe b a) = true := by
  intro a b
  simp only [strLe, Bool.or_eq_true, decide_eq_true_eq]
  exact le_total a b

theorem getLast?_upper_bound {le : PyStr → PyStr → Bool} : ∀ {l : List PyStr} {y : PyStr},
    l.Pairwise (fun a b => le a b = true) → l.getLast? = some y →
    ∀ x ∈ l, x = y ∨ le x y = true := by
  intro l
  induction l with
  | nil => intro y _ hy; simp at hy
  | cons a t ih =>
    intro y hp hy x hx
    cases t with
    | nil =>
      simp only [List.getLast?_singleton, Option.some.injEq] at hy
      simp only [List.mem_singleton] at hx
      exact Or.inl (hx.trans hy)
    | cons b t' =>
      rw [List.getLast?_cons_cons] at hy
      rcases List.mem_cons.mp hx with rfl | hx'
      · exact Or.inr ((List.pairwise_cons.mp hp).1 y (List.mem_of_mem_getLast? hy))
      · exact ih (List.pairwise_cons.mp hp).2 hy x hx'

theorem insertAsc_perm (x : PyStr) : ∀ (l : List PyStr),
    (insertAsc x l).Perm (x :: l) := by
  intro l
  induction l with
  | nil => rfl
  | cons y ys ih =>
    rw [insertAsc]
    by_cases hle : strLe y x = true
    · rw [if_pos hle]
      exact (List.Perm.cons y ih).trans (List.Perm.swap x y ys)
    · rw [if_neg hle]

theorem pySorted_perm : ∀ (l : List PyStr), (pySorted l).Perm l := by
  intro l
  induction l with
  | nil => rfl
  | cons x xs ih =>
    rw [pySorted]
    exact (insertAsc_perm x (pySorted xs)).trans (List.Perm.cons x ih)

theorem insertAsc_pairwise (x : PyStr) : ∀ {l : List PyStr},
    l.Pairwise (fun a b => strLe a b = true) →
    (insertAsc x l).Pairwise (fun a b => strLe a b = true) := by
  intro l
  induction l with
  | nil => intro _; simp [insertAsc]
  | cons y ys ih =>
    intro h
    rw [insertAsc]
    by_cases hle : strLe y x = true
    · rw [if_pos hle]
      rw [List.pairwise_cons] at h ⊢
      refine ⟨?_, ih h.2⟩
      intro z hz
      rcases List.mem_cons.mp ((insertAsc_perm x ys).mem_iff.mp hz) with rfl | hz'
      · exact hle
      · exact h.1 z hz'
    · rw [if_neg hle]
      have hxy : strLe x y = true := by
        have htot : strLe y x = true ∨ strLe x y = true := by simpa using strLe_total y x
        rcases htot with hyx | hxy
        · exact absurd hyx hle
        · exact hxy
      rw [List.pairwise_cons]
      refine ⟨?_, h⟩
      intro z hz
      rcases List.mem_cons.mp hz with rfl | hz'
      · exact hxy
      · exact strLe_trans _ _ _ hxy ((List.pairwise_cons.mp h).1 z hz')

theorem pySorted_pairwise : ∀ (l : List PyStr),
    (pySorted l).Pairwise (fun a b => strLe a b = true) := by
  intro l
  induction l with
  | nil => exact List.Pairwise.nil
  | cons x xs ih =>
    rw [pySorted]
    exact insertAsc_pairwise x ih

theorem pySorted_getLastD_max (cs : List PyStr) (hne : cs ≠ []) :
    (pySorted cs).getLastD [] ∈ cs ∧
    ∀ x ∈ cs, strLe x ((pySorted cs).getLastD []) = true := by
  have hperm := pySorted_perm cs
  have hsne : pySorted cs ≠ [] := by
    intro h0
    apply hne
    have hlen := hperm.length_eq
    rw [h0] at hlen
    exact List.length_eq_zero.mp hlen.symm
  have hy : (pySorted cs).getLast? = some ((pySorted cs).getLast hsne) :=
    List.getLast?_eq_getLast _ hsne
  have hD : (pySorted cs).getLastD [] = (pySorted cs).getLast hsne := by
    rw [List.getLastD_eq_getLast?, hy]
    rfl
  constructor
  · rw [hD]
    exact hperm.mem_iff.mp (List.mem_of_mem_getLast? hy)
  · intro x hx
    rw [hD]
    have hx' : x ∈ pySorted cs := hperm.mem_iff.mpr hx
    have hsorted := pySorted_pairwise cs
    rcases getLast?_upper_bound hsorted hy x hx' with rfl | hle
    · simp [strLe]
    · exact hle

/-- C5: for a closed issue, the converted issue's closed-at timestamp is
    the most recent (maximal) among the converted timestamps of the changes
    whose state transition goes from an open-like state to a non-open-like
    state; when no such transition exists, it is the issue's raw
    last-updated timestamp. -/
theorem convert_issue_closed_at (issue : BBIssue) (comments : List BBComment)
    (changes : List BBChange) (options : Options) (attach_names : List PyStr)
    (users : List (PyStr × PyStr)) (web : Web) (st : ConvState)
    (out : GHIssue) (st' : ConvState)
    (h : convert_issue (.real issue) comments changes options attach_names
      users web st = .ok (out, st'))
    (hclosed : open_states.contains issue.state = false) :
    (changes.filter stateTransition = [] → out.closed_at = some issue.updated_on) ∧
    (∀ cs, (changes.filter stateTransition).mapM
        (fun change => convert_date change.created_on) = .ok cs → cs ≠ [] →
      ∃ m, out.closed_at = some m ∧ m ∈ cs ∧ ∀ x ∈ cs, strLe x m = true) := by
  simp only [convert_issue] at h
  cases hfb : format_issue_body issue attach_names options web st with
  | error e => rw [hfb] at h; simp at h
  | ok p =>
    obtain ⟨body, st₁⟩ := p
    simp only [hfb] at h
    cases hcd : convert_date issue.created_on with
    | error e => rw [hcd] at h; simp at h
    | ok created =>
      simp only [hcd] at h
      cases hud : convert_date issue.updated_on with
      | error e => rw [hud] at h; simp at h
      | ok updated =>
        simp only [hud] at h
        split at h
        · simp at h
        · rename_i o heq
          simp only [hclosed, Bool.not_false] at heq
          rw [if_pos trivial] at heq
          cases hm : (changes.filter stateTransition).mapM
              (fun change => convert_date change.created_on) with
          | error e => rw [hm] at heq; simp at heq
          | ok cs =>
            simp only [hm] at heq
            by_cases hcs : cs = []
            · subst hcs
              rw [if_neg (by simp)] at heq
              injection heq with heq'
              subst heq'
              have hout : out.closed_at = some issue.updated_on := by
                split at h
                · rename_i m hmil
                  split at h
                  · split at h
                    · simp at h
                    · simp only [Except.ok.injEq, Prod.mk.injEq] at h
                      obtain ⟨h1, -⟩ := h
                      subst h1
                      rfl
                  · simp only [Except.ok.injEq, Prod.mk.injEq] at h
                    obtain ⟨h1, -⟩ := h
                    subst h1
                    rfl
                · simp only [Except.ok.injEq, Prod.mk.injEq] at h
                  obtain ⟨h1, -⟩ := h
                  subst h1
                  rfl
              refine ⟨fun _ => hout, fun cs' hm' hne' => ?_⟩
              injection hm' with e
              exact absurd e.symm hne'
            · rw [if_pos hcs] at heq
              injection heq with heq'
              subst heq'
              have hout : out.closed_at = some ((pySorted cs).getLastD []) := by
                split at h
                · rename_i m hmil
                  split at h
                  · split at h
                    · simp at h
                    · simp only [Except.ok.injEq, Prod.mk.injEq] at h
                      obtain ⟨h1, -⟩ := h
                      subst h1
                      rfl
                  · simp only [Except.ok.injEq, Prod.mk.injEq] at h
                    obtain ⟨h1, -⟩ := h
                    subst h1
                    rfl
                · simp only [Except.ok.injEq, Prod.mk.injEq] at h
                  obtain ⟨h1, -⟩ := h
                  subst h1
                  rfl
              refine ⟨fun hfil => ?_, fun cs' hm' _ => ?_⟩
              · rw [hfil] at hm
                simp only [List.mapM_nil] at hm
                injection hm with e
                exact absurd e.symm hcs
              · injection hm' with e
                subst e
                obtain ⟨hmem, hub⟩ := pySorted_getLastD_max cs hcs
                exact ⟨_, hout, hmem, hub⟩

/-- Witness for `convert_issue_closed_at` at the concrete closed issue
    `w2Issue`: the closed-at timestamp is the maximum of the two converted
    transition timestamps. -/
theorem convert_issue_closed_at_witness :
    (([wCh2, wCh1].filter stateTransition = [] →
      w2Out.closed_at = some w2Issue.updated_on)) ∧
    (∀ cs, ([wCh2, wCh1].filter stateTransition).mapM
        (fun change => convert_date change.created_on) = .ok cs → cs ≠ [] →
      ∃ m, w2Out.closed_at = some m ∧ m ∈ cs ∧ ∀ x ∈ cs, strLe x m = true) :=
  convert_issue_closed_at w2Issue [] [wCh2, wCh1] ⟨"u/r".toList, none, false⟩ [] []
    ⟨fun _ => 200, fun _ => (201, 1)⟩ ⟨[], 0, [], 0⟩ w2Out ⟨[], 0, [], 0⟩
    (by decide) (by decide)

theorem pyStrip_ne_nil {s : PyStr} {c : Char} (hc : c ∈ s)
    (hw : c.isWhitespace = false) : pyStrip s ≠ [] := by
  intro h0
  rw [pyStrip] at h0
  have h1 : (s.dropWhile Char.isWhitespace).reverse.dropWhile Char.isWhitespace = [] :=
    List.reverse_eq_nil_iff.mp h0
  have h3 : ∀ a ∈ s.dropWhile Char.isWhitespace, a.isWhitespace = true := by
    intro a ha
    exact List.dropWhile_eq_nil_iff.mp h1 a (List.mem_reverse.mpr ha)
  have h4 : ∀ a ∈ s, a.isWhitespace = true := by
    intro a ha
    rw [← List.takeWhile_append_dropWhile (p := Char.isWhitespace) (l := s)] at ha
    rcases List.mem_append.mp ha with h | h
    · exact List.mem_takeWhile_imp h
    · exact h3 a h
  rw [h4 c hc] at hw
  simp at hw

theorem convert_comment_some {c : BBComment} {options : Options} {web : Web}
    {st : ConvState} {og : Option GHComment} {st₁ : ConvState} {raw : PyStr}
    (hraw : c.content_raw = some raw)
    (hskip : ∀ u, c.user = some u → options.bb_skip ≠ some u.nickname)
    (h : convert_comment c options web st = .ok (og, st₁)) : og ≠ none := by
  rw [convert_comment] at h
  cases hfb : format_comment_body c options web st with
  | error e => rw [hfb] at h; simp at h
  | ok p =>
    obtain ⟨body, st₂⟩ := p
    simp only [hfb] at h
    have hbody : ∃ tail, body = "**Original comment by ".toList ++ tail := by
      rw [format_comment_body] at hfb
      simp only [hraw] at hfb
      cases hcc : convert_changesets raw options with
      | error e => rw [hcc] at hfb; simp at hfb
      | ok c₁ =>
        simp only [hcc] at hfb
        cases hfu : format_user c.user web st with
        | error e => rw [hfu] at hfb; simp at hfb
        | ok q =>
          obtain ⟨author, st₃⟩ := q
          simp only [hfu] at hfb
          have hsk : (match c.user with
              | some u => options.bb_skip == some u.nickname
              | none => false) = false := by
            cases hu : c.user with
            | none => rfl
            | some u =>
              simp only []
              exact beq_eq_false_iff_ne.mpr (hskip u hu)
          rw [hsk] at hfb
          rw [if_neg (by simp)] at hfb
          simp only [Except.ok.injEq, Prod.mk.injEq] at hfb
          obtain ⟨hb, -⟩ := hfb
          refine ⟨author ++ ".**\n\n".toList ++ SEP ++ "\n\n".toList
            ++ convert_users (convert_links (convert_creole_braces c₁) options) st.users
            ++ ['\n'], ?_⟩
          rw [← hb]
          simp
    obtain ⟨tail, rfl⟩ := hbody
    rw [if_neg] at h
    · cases hcd : convert_date c.created_on with
      | error e => rw [hcd] at h; simp at h
      | ok created =>
        simp only [hcd] at h
        simp only [Except.ok.injEq, Prod.mk.injEq] at h
        obtain ⟨h1, -⟩ := h
        rw [← h1]
        simp
    · exact pyStrip_ne_nil (c := '*') (by simp) (by decide)

/-- C6 counterexample: with `--skip-attribution-for bob`, a comment list
    holding a `None`-content comment, a normal comment and a
    whitespace-only comment by bob yields one converted comment, while two
    of the comments have non-empty content; and an empty-string comment by
    a non-skip author (third conjunct, separate list) is kept rather than
    dropped. -/
theorem gh_comments_count_mismatch :
    (gh_comments_of cexComments cexOptions
        ⟨fun _ => 200, fun _ => (201, 1)⟩
        ⟨[], 0, [], 0⟩).map (fun p => p.1.length) = .ok 1 ∧
    (cexComments.filter
      (fun c => c.content_raw ≠ none ∧ c.content_raw ≠ some [])).length = 2 ∧
    (gh_comments_of
        [{ created_on := "2012-11-26T09:59:39+00:00".toList, user := none,
           content_raw := some [] }]
        cexOptions ⟨fun _ => 200, fun _ => (201, 1)⟩
        ⟨[], 0, [], 0⟩).map (fun p => p.1.length) = .ok 1 := by
  refine ⟨by decide, by decide, by decide⟩

/-- C6 (amended): the converted-comment list keeps exactly the comments
    with non-`None` raw content whose formatted body is not blank; when no
    kept comment is authored by the skip-attribution user this is all
    comments with non-`None` content, and the list's length equals their
    count.  (Comments with `None` content are dropped before conversion;
    an empty-string content comment by a normal author is kept, since the
    attribution header makes its body non-blank.) -/
theorem gh_comments_of_length : ∀ (comments : List BBComment) (options : Options)
    (web : Web) (st : ConvState) (out : List GHComment) (st' : ConvState),
    gh_comments_of comments options web st = .ok (out, st') →
    (∀ c ∈ comments, c.content_raw ≠ none →
      ∀ u, c.user = some u → options.bb_skip ≠ some u.nickname) →
    out.length = (comments.filter (fun c => c.content_raw ≠ none)).length := by
  intro comments
  induction comments with
  | nil =>
    intro options web st out st' h _
    rw [gh_comments_of] at h
    simp only [Except.ok.injEq, Prod.mk.injEq] at h
    obtain ⟨h1, -⟩ := h
    rw [← h1]
    rfl
  | cons c rest ih =>
    intro options web st out st' h hskip
    rw [gh_comments_of] at h
    cases hr : c.content_raw with
    | none =>
      simp only [hr] at h
      have := ih options web st out st' h
        (fun x hx => hskip x (List.mem_cons_of_mem _ hx))
      rw [this]
      simp [List.filter_cons, hr]
    | some raw =>
      simp only [hr] at h
      cases hc : convert_comment c options web st with
      | error e => rw [hc] at h; simp at h
      | ok p =>
        obtain ⟨og, st₁⟩ := p
        cases og with
        | none =>
          exact absurd rfl
            (convert_comment_some hr
              (hskip c (by simp) (by simp [hr])) hc)
        | some g =>
          simp only [hc] at h
          cases hrest : gh_comments_of rest options web st₁ with
          | error e => rw [hrest] at h; simp at h
          | ok q =>
            obtain ⟨l, st₂⟩ := q
            simp only [hrest] at h
            simp only [Except.ok.injEq, Prod.mk.injEq] at h
            obtain ⟨h1, -⟩ := h
            rw [← h1]
            have := ih options web st₁ l st₂ hrest
              (fun x hx => hskip x (List.mem_cons_of_mem _ hx))
            simp [List.filter_cons, hr, this]

/-- Witness for `gh_comments_of_length` at `wC6Comments`: one comment of
    the two has content, and exactly one converted comment results. -/
theorem gh_comments_of_length_witness :
    wC6Out.length = (wC6Comments.filter (fun c => c.content_raw ≠ none)).length :=
  gh_comments_of_length wC6Comments cexOptions ⟨fun _ => 200, fun _ => (201, 1)⟩
    ⟨[], 0, [], 0⟩ wC6Out ⟨[], 0, [], 0⟩ (by decide) (by decide)

theorem foldr_max_init_le (l : List Nat) (a : Nat) : a ≤ l.foldr max a := by
  induction l with
  | nil => exact le_refl a
  | cons x t ih => exact le_trans ih (le_max_right x _)

theorem foldr_max_max (l : List Nat) (a b : Nat) :
    max a (l.foldr max b) = l.foldr max (max a b) := by
  induction l with
  | nil => rfl
  | cons x t ih =>
    simp only [List.foldr_cons]
    rw [max_left_comm, ih]

theorem fillRef_id (issues : List BBIssue) (n : Nat) : (fillRef issues n).id = n := by
  rw [fillRef]
  cases hf : issues.find? (fun i => i.id == n) with
  | none => rfl
  | some i =>
    have := List.find?_some hf
    simp only [beq_iff_eq] at this
    simp [FilledIssue.id, this]

/-- C1: for a list of issues sorted by strictly increasing identifier, all
    greater than the offset `skip`, `fill_gaps` yields the sequence indexed
    by the contiguous identifiers from `skip + 1` to the maximum input
    identifier, holding at each identifier the real input issue with that
    identifier when one exists and a `DummyIssue` placeholder otherwise; in
    particular the emitted identifiers are exactly that contiguous range. -/
theorem fill_gaps_contiguous : ∀ (issues : List BBIssue) (skip : Nat),
    issues.Chain' (fun a b => a.id < b.id) →
    (∀ i ∈ issues, skip < i.id) →
    fill_gaps issues skip
      = (List.range' (skip + 1) ((issues.map BBIssue.id).foldr max skip - skip)).map
          (fillRef issues) ∧
    (fill_gaps issues skip).map FilledIssue.id
      = List.range' (skip + 1) ((issues.map BBIssue.id).foldr max skip - skip) := by
  have main : ∀ (issues : List BBIssue) (skip : Nat),
      issues.Chain' (fun a b => a.id < b.id) →
      (∀ i ∈ issues, skip < i.id) →
      fill_gaps issues skip
        = (List.range' (skip + 1) ((issues.map BBIssue.id).foldr max skip - skip)).map
            (fillRef issues) := by
    intro issues
    induction issues with
    | nil => intro skip _ _; simp [fill_gaps]
    | cons i rest ih =>
      intro skip hchain hgt
      have hi : skip < i.id := hgt i (by simp)
      have hpair : ∀ j ∈ rest, i.id < j.id := by
        haveI : IsTrans BBIssue (fun a b => a.id < b.id) :=
          ⟨fun a b c h1 h2 => lt_trans h1 h2⟩
        exact (List.pairwise_cons.mp (List.chain'_iff_pairwise.mp hchain)).1
      have hIH := ih i.id hchain.tail hpair
      have hMr_ge : i.id ≤ (rest.map BBIssue.id).foldr max i.id :=
        foldr_max_init_le _ _
      have hM : ((i :: rest).map BBIssue.id).foldr max skip
          = (rest.map BBIssue.id).foldr max i.id := by
        simp only [List.map_cons, List.foldr_cons]
        rw [foldr_max_max, max_eq_left (le_of_lt hi)]
      rw [hM]
      set Mr := (rest.map BBIssue.id).foldr max i.id with hMrdef
      rw [fill_gaps, hIH]
      have e1 : List.range' i.id 1 ++ List.range' (i.id + 1) (Mr - i.id)
          = List.range' i.id (Mr - i.id + 1) := by
        have h0 := List.range'_append i.id 1 (Mr - i.id) 1
        simpa using h0
      have e2 : List.range' (skip + 1) (i.id - (skip + 1))
            ++ List.range' i.id (Mr - i.id + 1)
          = List.range' (skip + 1) (Mr - skip) := by
        have h3 := List.range'_append (skip + 1) (i.id - (skip + 1)) (Mr - i.id + 1) 1
        have ha : skip + 1 + 1 * (i.id - (skip + 1)) = i.id := by omega
        have hb : Mr - i.id + 1 + (i.id - (skip + 1)) = Mr - skip := by omega
        rw [ha, hb] at h3
        exact h3
      rw [← e2, ← e1]
      rw [List.map_append, List.map_append]
      congr 1
      · apply List.map_congr_left
        intro n hn
        obtain ⟨k, hk, rfl⟩ := List.mem_range'.mp hn
        have hnlt : skip + 1 + 1 * k < i.id := by omega
        rw [fillRef]
        have hfind : (i :: rest).find? (fun x => x.id == skip + 1 + 1 * k) = none := by
          rw [List.find?_eq_none]
          intro x hx
          rcases List.mem_cons.mp hx with rfl | hx'
          · simp only [beq_iff_eq]
            omega
          · simp only [beq_iff_eq]
            have := hpair x hx'
            omega
        rw [hfind]
      · rw [List.range'_one, List.map_cons]
        have hhead : fillRef (i :: rest) i.id = FilledIssue.real i := by
          rw [fillRef]
          have hp : (i :: rest).find? (fun x => x.id == i.id) = some i :=
            List.find?_cons_of_pos _ (by simp)
          rw [hp]
        rw [hhead]
        congr 1
        apply List.map_congr_left
        intro n hn
        obtain ⟨k, hk, rfl⟩ := List.mem_range'.mp hn
        have hne : fillRef (i :: rest) (i.id + 1 + 1 * k)
            = fillRef rest (i.id + 1 + 1 * k) := by
          rw [fillRef, fillRef]
          rw [List.find?_cons_of_neg _ (by simp only [beq_iff_eq]; omega)]
        rw [hne]
  intro issues skip hchain hgt
  refine ⟨main issues skip hchain hgt, ?_⟩
  rw [main issues skip hchain hgt, List.map_map]
  conv_rhs => rw [← List.map_id (List.range' (skip + 1) _)]
  apply List.map_congr_left
  intro n _
  exact fillRef_id issues n

def wG1 : BBIssue := { wIssue with id := 2 }

def wG2 : BBIssue := { wIssue with id := 4 }

def wG3 : BBIssue := { wIssue with id := 7 }

theorem wG_chain : List.Chain' (fun a b => BBIssue.id a < b.id) [wG1, wG2, wG3] := by
  rw [List.chain'_cons, List.chain'_cons]
  exact ⟨by decide, by decide, List.chain'_singleton _⟩

theorem fill_gaps_contiguous_witness :
    List.Chain' (fun a b => a.id < b.id) [wG1, wG2, wG3] ∧
    (∀ i ∈ [wG1, wG2, wG3], 0 < i.id) ∧
    (fill_gaps [wG1, wG2, wG3] 0).map FilledIssue.id = [1, 2, 3, 4, 5, 6, 7] := by
  refine ⟨wG_chain, by decide, ?_⟩
  have h := fill_gaps_contiguous [wG1, wG2, wG3] 0 wG_chain (by decide)
  rw [h.2]
  decide
